import Mathlib

/-
  Verification development for the tree2scaffold text-to-structure core
  (pkg/parser/parser.go).

  Strings are modelled as lists of unicode characters (Go iterates runes
  and all the byte-level operations used here coincide with the
  character-level ones on well-formed text).  Each definition below is a
  direct translation of the corresponding Go function; the Go standard
  library functions used by the parser (strings.*, path/filepath.*) are
  modelled at the start of the file.
-/

set_option linter.unusedVariables false
set_option linter.unusedTactic false

abbrev Str := List Char

def strL (s : String) : Str := s.data

def slashStr : Str := ['/']

def dotStr : Str := ['.']

def dotdotStr : Str := ['.', '.']

/-- Model of Go strings.HasPrefix: len(s) >= len(pre) and s[:len(pre)] == pre. -/
def goStartsWith (s pre : Str) : Bool :=
  decide (pre.length ≤ s.length ∧ s.take pre.length = pre)

/-- Model of Go strings.HasSuffix: len(s) >= len(suf) and s[len(s)-len(suf):] == suf. -/
def goEndsWith (s suf : Str) : Bool :=
  decide (suf.length ≤ s.length ∧ s.drop (s.length - suf.length) = suf)

/-- Model of Go strings.TrimPrefix. -/
def goTrimLeading (s pre : Str) : Str :=
  if goStartsWith s pre then s.drop pre.length else s

/-- Model of Go strings.TrimSuffix (removes one occurrence of the suffix). -/
def goTrimTrailing (s suf : Str) : Str :=
  if goEndsWith s suf then s.take (s.length - suf.length) else s

/-- The white-space code points recognized by Go unicode.IsSpace. -/
def goSpaceChars : List Char :=
  ['\t', '\n', Char.ofNat 0x0B, Char.ofNat 0x0C, '\r', ' ',
   Char.ofNat 0x85, Char.ofNat 0xA0, Char.ofNat 0x1680,
   Char.ofNat 0x2000, Char.ofNat 0x2001, Char.ofNat 0x2002, Char.ofNat 0x2003,
   Char.ofNat 0x2004, Char.ofNat 0x2005, Char.ofNat 0x2006, Char.ofNat 0x2007,
   Char.ofNat 0x2008, Char.ofNat 0x2009, Char.ofNat 0x200A,
   Char.ofNat 0x2028, Char.ofNat 0x2029, Char.ofNat 0x202F,
   Char.ofNat 0x205F, Char.ofNat 0x3000]

def goUnicodeIsSpace (c : Char) : Bool := goSpaceChars.any (fun x => decide (x = c))

/-- Model of Go strings.TrimSpace. -/
def goTrimSpace (s : Str) : Str :=
  ((s.dropWhile goUnicodeIsSpace).reverse.dropWhile goUnicodeIsSpace).reverse

/-- The character class matched by a backslash-s in a Go regular expression. -/
def goRegexSpace (c : Char) : Bool :=
  decide (c = '\t' ∨ c = '\n' ∨ c = Char.ofNat 0x0C ∨ c = '\r' ∨ c = ' ')

def containsC (c : Char) (s : Str) : Bool := decide (c ∈ s)

def countC (c : Char) (s : Str) : Nat := (s.filter (fun x => decide (x = c))).length

/-- Model of strings.ContainsAny(line, the four tree-drawing glyphs);
    mirrors containsTreeChar in parser.go. -/
def containsTreeChar (l : Str) : Bool :=
  containsC '│' l || containsC '├' l || containsC '└' l || containsC '─' l

/-- Splitting on a single separator character, as strings.Split does
    for a one-character separator. -/
def splitC (sep : Char) : Str → List Str
  | [] => [[]]
  | c :: t =>
    match splitC sep t with
    | [] => [[c]]
    | h :: r => if c = sep then [] :: h :: r else (c :: h) :: r

/-- Joining with a single separator character, as strings.Join does. -/
def joinWith (sep : Char) : List Str → Str
  | [] => []
  | [x] => x
  | x :: y :: t => x ++ sep :: joinWith sep (y :: t)

/-- The segment-stack loop of Go path/filepath.Clean: empty and dot segments
    are dropped, a dotdot segment pops a poppable segment, is dropped at the
    root when the path is rooted, and is kept otherwise.  The accumulator is
    the stack (head is the most recent segment); the final stack is returned
    in segment order. -/
def cleanLoop (rooted : Bool) : List Str → List Str → List Str
  | [], acc => acc.reverse
  | s :: rest, acc =>
    if s = [] ∨ s = dotStr then cleanLoop rooted rest acc
    else if s = dotdotStr then
      match acc with
      | [] => if rooted then cleanLoop rooted rest [] else cleanLoop rooted rest [dotdotStr]
      | t :: acc2 =>
        if rooted then cleanLoop rooted rest acc2
        else if t = dotdotStr then cleanLoop rooted rest (s :: t :: acc2)
        else cleanLoop rooted rest acc2
    else cleanLoop rooted rest (s :: acc)

/-- Model of Go path/filepath.Clean (unix separator). -/
def goClean (s : Str) : Str :=
  if s = [] then dotStr
  else
    let rooted := decide (s.head? = some '/')
    let segs := cleanLoop rooted (splitC '/' s) []
    match segs with
    | [] => if rooted then slashStr else dotStr
    | _ => if rooted then '/' :: joinWith '/' segs else joinWith '/' segs

/-- Model of Go path/filepath.Dir: everything up to and including the final
    separator, cleaned; a dot when there is no separator. -/
def goDir (s : Str) : Str :=
  let pre := (s.reverse.dropWhile (fun c => !(decide (c = '/')))).reverse
  if pre = [] then dotStr else goClean pre

/-- Model of Go path/filepath.Base. -/
def goBase (s : Str) : Str :=
  if s = [] then dotStr
  else
    let t := (s.reverse.dropWhile (fun c => decide (c = '/'))).reverse
    if t = [] then slashStr
    else (t.reverse.takeWhile (fun c => !(decide (c = '/')))).reverse

/-- Model of Go path/filepath.Ext: the suffix starting at the final dot in
    the final path element, empty when there is none. -/
def goExt (s : Str) : Str :=
  let seg := s.reverse.takeWhile (fun c => !(decide (c = '/')))
  let pre := seg.takeWhile (fun c => !(decide (c = '.')))
  if pre.length = seg.length then [] else (pre ++ dotStr).reverse

/-- Model of Go path/filepath.Join: skip to the first non-empty element,
    join with the separator, clean. -/
def goJoin : List Str → Str
  | [] => []
  | p :: rest => if p = [] then goJoin rest else goClean (joinWith '/' (p :: rest))

/-- The parser's sole domain object (parser.go Node). -/
structure Node where
  Path : Str
  IsDir : Bool
  Comment : Str
deriving DecidableEq, Repr

/-- Deterministic model of simpleFileRe.FindStringSubmatch for the anchored
    pattern used by parser.go: a line matches when it consists of a non-empty
    run of characters that are neither regex white-space nor the hash mark,
    followed by optional white-space, followed by either nothing or a hash
    mark with at least one further character.  Returns (group 1, group 2);
    group 2 is empty when the optional comment group did not participate.
    When everything after the hash mark is white-space, the greedy inner
    white-space run backtracks by one so that the dot-plus group matches the
    final white-space character, exactly as the backtracking regex does. -/
def reMatchSimple (s : Str) : Option (Str × Str) :=
  let name := s.takeWhile (fun c => !(goRegexSpace c || decide (c = '#')))
  if name = [] then none
  else
    let rest := s.drop name.length
    match rest.dropWhile goRegexSpace with
    | [] => some (name, [])
    | c :: r2 =>
      if c = '#' then
        match r2 with
        | [] => none
        | _ :: _ =>
          let m2 := r2.dropWhile goRegexSpace
          if m2 = [] then some (name, r2.drop (r2.length - 1)) else some (name, m2)
      else none

/-- Model of parseSimpleFormat: one node per line matching simpleFileRe,
    in line order; non-matching lines are skipped. -/
def parseSimpleFormat : List Str → List Node
  | [] => []
  | l :: rest =>
    match reMatchSimple l with
    | none => parseSimpleFormat rest
    | some (p, m2) =>
      { Path := goTrimTrailing p slashStr,
        IsDir := goEndsWith p slashStr,
        Comment := goTrimSpace m2 } :: parseSimpleFormat rest

def treeIndentChars : List Char := ['│', ' ', '├', '└', '─']

/-- The conventional directory-name table local to parseTreeFormat. -/
def treeDirNames : List Str :=
  [strL ".github", strL "cmd", strL "internal", strL "pkg", strL "api",
   strL "test", strL "testdata", strL "config", strL "workflows",
   strL "server", strL "problems"]

def memStr (x : Str) (l : List Str) : Bool := l.any (fun y => decide (y = x))

/-- Model of strings.SplitN(s, single separator, 2): the part before the
    first separator, and, when a separator occurs, the remainder after it. -/
def splitOnce (sep : Char) (s : Str) : Str × Option Str :=
  match s.dropWhile (fun c => !(decide (c = sep))) with
  | [] => (s, none)
  | _ :: t => (s.takeWhile (fun c => !(decide (c = sep))), some t)

/-- The body of parseTreeFormat's per-line loop: computes the indent run,
    the indent level (count of vertical glyphs plus one when a branch glyph
    is present), the name and comment tokens, the directory flag (trailing
    slash, then the child-lookahead heuristic indexing allLines at
    level + 1, then the conventional-name table), updates the
    depth-indexed parent array, joins the ancestors into the full path,
    strips the root name, and drops entries whose full path is empty.
    Returns the updated parent array and the optional emitted node. -/
def processTreeLine (allLines : List Str) (rootName : Str) (parents : List Str)
    (l : Str) : List Str × Option Node :=
  let indentStr := l.takeWhile (fun c => treeIndentChars.any (fun x => decide (x = c)))
  let level := countC '│' indentStr +
    (if containsC '├' indentStr || containsC '└' indentStr then 1 else 0)
  let body := l.drop indentStr.length
  let parts := splitOnce ' ' body
  let path := parts.1
  let comment : Str :=
    match parts.2 with
    | some t =>
      let tt := goTrimSpace t
      if goStartsWith tt (strL "#") then goTrimLeading tt (strL "# ") else []
    | none => []
  let isDir0 := goEndsWith path slashStr
  let isDir1 :=
    if isDir0 = false ∧ level < allLines.length - 1 then
      (let next := allLines.getD (level + 1) []
       if countC '│' next + countC '├' next + countC '└' next > level then true
       else isDir0)
    else isDir0
  let isDir2 :=
    if isDir1 = false ∧ containsC '.' path = false ∧
        memStr (goBase path) treeDirNames = true then true
    else isDir1
  let cleanPath := goTrimTrailing path slashStr
  let parents2 :=
    ((parents ++ List.replicate (level + 1 - parents.length) []).take (level + 1)).set
      level cleanPath
  let fullParts := parents2.filter (fun q => !q.isEmpty)
  let full0 := goJoin fullParts
  let full1 := if isDir2 = true then full0 ++ slashStr else full0
  let full2 :=
    if ¬rootName = [] ∧ goStartsWith full1 rootName = true
    then full1.drop rootName.length else full1
  (parents2,
   if full2 = [] then none
   else some { Path := full2, IsDir := isDir2, Comment := comment })

/-- The per-line loop of parseTreeFormat, threading the parent array. -/
def treeLoop (allLines : List Str) (rootName : Str) : List Str → List Str → List Node
  | _, [] => []
  | parents, l :: rest =>
    match processTreeLine allLines rootName parents l with
    | (ps2, some n) => n :: treeLoop allLines rootName ps2 rest
    | (ps2, none) => treeLoop allLines rootName ps2 rest

/-- Model of parseTreeFormat: detect the partial-tree form, otherwise
    consume the first line as the root (capturing the root name when it
    matches simpleFileRe), then run the per-line loop. -/
def parseTreeFormat (lines : List Str) : List Node :=
  let isPartial :=
    match lines with
    | l :: _ => goStartsWith l (strL "├──")
    | [] => false
  if isPartial then treeLoop lines [] [] lines
  else
    match lines with
    | [] => []
    | l0 :: rest =>
      let rootName :=
        match reMatchSimple l0 with
        | some m => if goEndsWith m.1 slashStr then m.1 else m.1 ++ slashStr
        | none => []
      treeLoop rest rootName [] rest

/-- The conventional directory-name table local to postProcessDirectories. -/
def ppDirNames : List Str :=
  [strL ".github", strL "cmd", strL "internal", strL "pkg", strL "api",
   strL "test", strL "testdata", strL "config", strL "workflows",
   strL "server", strL "problems", strL "license", strL "session",
   strL "stats", strL "ui"]

/-- Marking a node as a directory: set the flag and append a trailing slash
    when one is not already present (the exact mutation both passes of
    postProcessDirectories perform). -/
def markDir (n : Node) : Node :=
  { n with IsDir := true,
           Path := if goEndsWith n.Path slashStr then n.Path else n.Path ++ slashStr }

/-- The lexical pass of postProcessDirectories on one node: a node that is
    not a directory, whose base name contains no dot and appears in the
    conventional table, is marked. -/
def passAOne (n : Node) : Node :=
  let baseName := goBase n.Path
  if n.IsDir = false ∧ containsC '.' baseName = false ∧
      memStr baseName ppDirNames = true
  then markDir n else n

/-- The lexical pass of postProcessDirectories (its first for-loop; the loop
    body reads and writes only the current index, hence a map). -/
def passA (ns : List Node) : List Node := ns.map passAOne

/-- The structural-pass marking condition for a node with path p: some other
    entry has a different path whose filepath.Dir is p and is not a dot. -/
def passBCond (nodes : List Node) (p : Str) : Bool :=
  nodes.any (fun other =>
    !(decide (other.Path = p)) &&
    (!(decide (goDir other.Path = dotStr)) && decide (goDir other.Path = p)))

/-- One iteration of the structural pass of postProcessDirectories: examine
    index i of the current list and mark it when the condition holds. -/
def passBStep (nodes : List Node) (i : Nat) : List Node :=
  match nodes[i]? with
  | none => nodes
  | some n =>
    if n.IsDir = true then nodes
    else if passBCond nodes n.Path = true then nodes.set i (markDir n) else nodes

/-- The structural pass of postProcessDirectories (its second for-loop,
    which mutates the list in place while it scans it). -/
def passB (nodes : List Node) : List Node :=
  (List.range nodes.length).foldl passBStep nodes

/-- Model of postProcessDirectories: the lexical pass, then the structural
    pass. -/
def postProcessDirectories (ns : List Node) : List Node := passB (passA ns)

/-- A directory entry whose slash-stripped path equals the target exists in
    the list (the search loop shape used throughout fixNestedPaths). -/
def hasDirWithPath (nodes : List Node) (target : Str) : Bool :=
  nodes.any (fun d => d.IsDir && decide (goTrimTrailing d.Path slashStr = target))

/-- The single search loop of the test_problem.json rule, which accepts a
    directory entry at either testdata/problems or problems. -/
def hasTestProblemDir (nodes : List Node) : Bool :=
  nodes.any (fun d => d.IsDir &&
    (decide (goTrimTrailing d.Path slashStr = strL "testdata/problems") ||
     decide (goTrimTrailing d.Path slashStr = strL "problems")))

/-- The hiddenDirConventions table of fixNestedPaths. -/
def hiddenDirConventions : List (Str × List (Str × Str)) :=
  [(strL ".github",
    [(strL "build.yml", strL "workflows"), (strL "ci.yml", strL "workflows"),
     (strL "release.yml", strL "workflows"), (strL "settings.yml", strL "settings")]),
   (strL ".vscode",
    [(strL "tasks.json", strL "tasks"), (strL "settings.json", strL "settings"),
     (strL "launch.json", strL "launch")]),
   (strL ".config",
    [(strL "app.config", strL "app"), (strL "user.settings", strL "user")])]

/-- Association-list lookup (modelling Go map indexing). -/
def alookup {α : Type} (k : Str) : List (Str × α) → Option α
  | [] => none
  | (k2, v) :: rest => if k2 = k then some v else alookup k rest

/-- The body of fixNestedPaths' loop for one non-directory node: the
    test_problem.json rule, then the hidden-directory convention rule, then
    (for two-segment paths under internal/) the same-stem rule, the _test.go
    rule and the code.go rule, each later assignment overwriting the earlier
    one.  All rule conditions read the node's original path, as the Go loop
    variable does; the searches scan the full node list. -/
def fixOneNode (nodes : List Node) (n : Node) : Node :=
  let path := n.Path
  let parentPath := goDir path
  let p1 :=
    if path = strL "test_problem.json" ∧ hasTestProblemDir nodes = true
    then strL "testdata/problems/" ++ path else path
  let p2 :=
    if goStartsWith parentPath (strL ".") = true ∧
        (splitC '/' parentPath).length = 1 ∧
        goStartsWith ((splitC '/' parentPath).getD 0 []) (strL ".") = true then
      match alookup parentPath hiddenDirConventions with
      | some subMap =>
        match alookup (goBase path) subMap with
        | some subDir =>
          let subDirPath := parentPath ++ slashStr ++ subDir
          if hasDirWithPath nodes subDirPath = true
          then subDirPath ++ slashStr ++ goBase path else p1
        | none => p1
      | none => p1
    else p1
  if goStartsWith path (strL "internal/") = true ∧ (splitC '/' path).length = 2 then
    let fileName := (splitC '/' path).getD 1 []
    let fileBaseName := goTrimTrailing fileName (goExt fileName)
    let p3 :=
      if hasDirWithPath nodes (strL "internal/" ++ fileBaseName) = true
      then strL "internal/" ++ fileBaseName ++ slashStr ++ fileName else p2
    let p4 :=
      if goEndsWith fileName (strL "_test.go") = true ∧
          hasDirWithPath nodes
            (strL "internal/" ++ goTrimTrailing fileName (strL "_test.go")) = true
      then strL "internal/" ++ goTrimTrailing fileName (strL "_test.go") ++
           slashStr ++ fileName
      else p3
    let p5 :=
      if fileName = strL "code.go" ∧ hasDirWithPath nodes (strL "internal/ui") = true
      then strL "internal/ui/" ++ fileName else p4
    { n with Path := p5 }
  else { n with Path := p2 }

/-- One iteration of fixNestedPaths' loop: rewrite index i of the current
    list when it holds a non-directory node. -/
def fixStep (nodes : List Node) (i : Nat) : List Node :=
  match nodes[i]? with
  | none => nodes
  | some n => if n.IsDir = true then nodes else nodes.set i (fixOneNode nodes n)

/-- Model of fixNestedPaths (the in-place loop over all indices). -/
def fixNestedPaths (nodes : List Node) : List Node :=
  (List.range nodes.length).foldl fixStep nodes

/-- The pure core of Parse once the lines have been read: drop blank lines,
    return the empty list for empty input, pick the simple or tree parser by
    glyph detection, then run the directory classifier and the path
    reconciler. -/
def ParseCore (raw : List Str) : List Node :=
  let lines := raw.filter (fun l => !(goTrimSpace l).isEmpty)
  if lines.isEmpty then []
  else
    let nodes :=
      if lines.any containsTreeChar then parseTreeFormat lines
      else parseSimpleFormat lines
    fixNestedPaths (postProcessDirectories nodes)

/-- Model of Parse: the input is either the line list successfully read from
    the reader or a scanner failure, which is the only error Parse
    propagates. -/
def Parse (inp : Except String (List Str)) : Except String (List Node) :=
  match inp with
  | Except.error e => Except.error e
  | Except.ok raw => Except.ok (ParseCore raw)

/-- The node, when any, that parseSimpleFormat builds from one line. -/
def simpleNodeOfLine (l : Str) : Option Node :=
  (reMatchSimple l).map (fun m =>
    { Path := goTrimTrailing m.1 slashStr,
      IsDir := goEndsWith m.1 slashStr,
      Comment := goTrimSpace m.2 })

/-- Total size of a segment list including one separator per segment; the
    measure used to bound the length of a cleaned path. -/
def segWeight (L : List Str) : Nat := (L.map (fun e => e.length + 1)).sum

/-- Relation between an intermediate state of fixNestedPaths and the input
    list: the directory flags agree and directory entries are untouched. -/
def dirRel (x y : Node) : Prop := x.IsDir = y.IsDir ∧ (y.IsDir = true → x = y)

/-- A segment that the clean loop pushes in its default branch: non-empty,
    not dot, not dotdot, separator-free. -/
def normalSeg (e : Str) : Prop :=
  ¬ e = [] ∧ ¬ e = dotStr ∧ ¬ e = dotdotStr ∧ ¬ '/' ∈ e

/-- Invariant of the clean-loop stack: normal segments on top of a run of
    dotdot segments, with no dotdot segments when the path is rooted. -/
def AccShape (rooted : Bool) (acc : List Str) : Prop :=
  ∃ normsRev k, acc = normsRev ++ List.replicate k dotdotStr ∧
    (∀ e ∈ normsRev, normalSeg e) ∧ (rooted = true → k = 0)

/-- Shape of the clean loop's output: a run of dotdot segments followed by
    normal segments, with no dotdot segments when the path is rooted. -/
def SegsShape (rooted : Bool) (L : List Str) : Prop :=
  ∃ k norms, L = List.replicate k dotdotStr ++ norms ∧
    (∀ e ∈ norms, normalSeg e) ∧ (rooted = true → k = 0)

/-- The depth-reconstruction example input of the specification. -/
def c2Input : List Str :=
  [strL "project/", strL "├── cmd/", strL "│   └── app/",
   strL "│       └── main.go", strL "└── pkg/", strL "    └── util/",
   strL "        └── helper.go"]

/-- A simple-list input whose final output contains a file entry whose path
    is the parent directory of another entry's path. -/
def c1Input : List Str :=
  [strL "internal/", strL "internal/ui/", strL "internal/ui/ui.go/",
   strL "internal/ui/ui.go/x", strL "internal/ui.go"]

/-- A sibling same-stem configuration under a directory other than
    internal. -/
def c9Input : List Node :=
  [⟨strL "pkg/ui.go", false, []⟩, ⟨strL "pkg/ui/", true, []⟩]

/-- C3: Parse returns an error exactly when the underlying read failed; any
    successfully read line list produces a node list, never an error. -/
theorem claim_C3 : ∀ inp : Except String (List Str),
    ((∃ ns, Parse inp = Except.ok ns) ↔ (∃ ls, inp = Except.ok ls)) ∧
    (∀ e, Parse inp = Except.error e ↔ inp = Except.error e) := by
  intro inp
  cases inp <;> simp [Parse]

/-- C2: on the depth-reconstruction example the parser actually returns
    cmd/, cmd/app/, cmd/main.go, pkg/, util/ and helper.go/ (the last one a
    directory), because the depth of a line is computed as the number of
    vertical glyphs plus one for a branch glyph, which conflates the third
    nesting level with the second; the specified output cmd/, cmd/app/,
    cmd/app/main.go, pkg/, pkg/util/, pkg/util/helper.go (also declared as
    the expected value in the repository's own parser test table) is not
    produced. -/
theorem claim_C2_actual : ParseCore c2Input =
    [⟨strL "cmd/", true, []⟩, ⟨strL "cmd/app/", true, []⟩,
     ⟨strL "cmd/main.go", false, []⟩, ⟨strL "pkg/", true, []⟩,
     ⟨strL "util/", true, []⟩, ⟨strL "helper.go/", true, []⟩] ∧
    ¬ ParseCore c2Input =
    [⟨strL "cmd/", true, []⟩, ⟨strL "cmd/app/", true, []⟩,
     ⟨strL "cmd/app/main.go", false, []⟩, ⟨strL "pkg/", true, []⟩,
     ⟨strL "pkg/util/", true, []⟩, ⟨strL "pkg/util/helper.go", false, []⟩] := by
  constructor
  · decide
  · decide

/-- C1 counterexample: in the final output of Parse on c1Input, entry 4 is a
    file at internal/ui/ui.go (relocated there by the path reconciler) while
    entry 3 is internal/ui/ui.go/x, whose parent directory is exactly that
    path; so the parent-implies-directory property fails in the final
    output. -/
theorem claim_C1_counterexample :
    ¬ (∀ (i j : Nat) (a b : Node),
        (ParseCore c1Input)[i]? = some a → (ParseCore c1Input)[j]? = some b →
        ¬ goDir b.Path = dotStr →
        goTrimTrailing a.Path slashStr = goDir b.Path → a.IsDir = true) := by
  intro h
  have h4 : (ParseCore c1Input)[4]? = some ⟨strL "internal/ui/ui.go", false, []⟩ := by
    decide
  have h3 : (ParseCore c1Input)[3]? = some ⟨strL "internal/ui/ui.go/x", false, []⟩ := by
    decide
  have := h 4 3 _ _ h4 h3 (by decide) (by decide)
  simp at this

/-- C8 counterexample: the simple-list parser emits an entry with an empty
    path for the input line consisting of a single slash, so Parse can
    return an entry whose path is empty. -/
theorem claim_C8_counterexample :
    (ParseCore [strL "/"]).length = 1 ∧
    ((ParseCore [strL "/"])[0]?).map Node.Path = some [] := by
  decide

/-- C9 counterexample: a file pkg/ui.go whose stem matches the sibling
    directory pkg/ui is not relocated by the path reconciler, because the
    same-stem rule in the code fires only for paths under internal/; the
    claim, which demands relocation for every directory D, fails here. -/
theorem claim_C9_counterexample :
    hasDirWithPath c9Input (strL "pkg/ui") = true ∧
    goTrimTrailing (strL "ui.go") (goExt (strL "ui.go")) = strL "ui" ∧
    ((fixNestedPaths c9Input)[0]?).map Node.Path = some (strL "pkg/ui.go") ∧
    ¬ strL "pkg/ui.go" = strL "pkg/ui/ui.go" := by
  decide

/-- Membership from an index lookup. -/
theorem memOfGet {α : Type} {l : List α} {i : Nat} {a : α}
    (h : l[i]? = some a) : a ∈ l := by
  induction l generalizing i with
  | nil => simp at h
  | cons c t ih =>
    cases i with
    | zero => simp at h; simp [h]
    | succ j => simp at h; exact List.mem_cons_of_mem _ (ih h)

theorem splitC_ne_nil (sep : Char) (s : Str) : ¬ splitC sep s = [] := by
  cases s with
  | nil => simp [splitC]
  | cons c t =>
    simp only [splitC]
    cases splitC sep t with
    | nil => simp
    | cons h r => by_cases hc : c = sep <;> simp [hc]

theorem mem_splitC_sepfree (sep : Char) (s : Str) :
    ∀ p ∈ splitC sep s, ¬ sep ∈ p := by
  induction s with
  | nil => intro p hp; simp [splitC] at hp; simp [hp]
  | cons c t ih =>
    intro p hp
    simp only [splitC] at hp
    cases hsp : splitC sep t with
    | nil => exact absurd hsp (splitC_ne_nil sep t)
    | cons h0 r =>
      rw [hsp] at hp
      by_cases hc : c = sep
      · simp [hc] at hp
        rcases hp with hp | hp | hp
        · simp [hp]
        · rw [hp]
          exact ih h0 (by rw [hsp]; exact List.mem_cons_self h0 r)
        · exact ih p (by rw [hsp]; exact List.mem_cons_of_mem h0 hp)
      · simp [hc] at hp
        rcases hp with hp | hp
        · rw [hp]
          intro hmem
          rcases List.mem_cons.mp hmem with he | he
          · exact hc he.symm
          · exact ih h0 (by rw [hsp]; exact List.mem_cons_self h0 r) he
        · exact ih p (by rw [hsp]; exact List.mem_cons_of_mem h0 hp)

theorem splitC_append_last (sep : Char) (s : Str) :
    splitC sep (s ++ [sep]) = splitC sep s ++ [[]] := by
  induction s with
  | nil => simp [splitC]
  | cons c t ih =>
    cases hsp : splitC sep t with
    | nil => exact absurd hsp (splitC_ne_nil sep t)
    | cons h0 r =>
      rw [List.cons_append, splitC, ih, hsp]
      by_cases hc : c = sep <;> simp [splitC, hsp, hc]

theorem splitC_sepfree (sep : Char) (x : Str) (h : ¬ sep ∈ x) :
    splitC sep x = [x] := by
  induction x with
  | nil => simp [splitC]
  | cons c t ih =>
    have hc : ¬ c = sep := fun he => h (he ▸ List.mem_cons_self c t)
    have ht : ¬ sep ∈ t := fun hm => h (List.mem_cons_of_mem c hm)
    rw [splitC, ih ht]
    simp [hc]

theorem splitC_append_cons (sep : Char) (a b : Str) (h : ¬ sep ∈ a) :
    splitC sep (a ++ sep :: b) = a :: splitC sep b := by
  induction a with
  | nil =>
    simp only [List.nil_append, splitC]
    cases hsp : splitC sep b with
    | nil => exact absurd hsp (splitC_ne_nil sep b)
    | cons h0 r => simp
  | cons c t ih =>
    have hc : ¬ c = sep := fun he => h (he ▸ List.mem_cons_self c t)
    have ht : ¬ sep ∈ t := fun hm => h (List.mem_cons_of_mem c hm)
    rw [List.cons_append, splitC, ih ht]
    cases hsp : splitC sep b with
    | nil => exact absurd hsp (splitC_ne_nil sep b)
    | cons h0 r => simp [hc]

theorem splitC_join (sep : Char) (L : List Str) (hne : ¬ L = [])
    (hf : ∀ p ∈ L, ¬ sep ∈ p) : splitC sep (joinWith sep L) = L := by
  induction L with
  | nil => exact absurd rfl hne
  | cons x rest ih =>
    cases rest with
    | nil =>
      simp only [joinWith]
      exact splitC_sepfree sep x (hf x (List.mem_cons_self x []))
    | cons y t =>
      simp only [joinWith]
      rw [splitC_append_cons sep x (joinWith sep (y :: t))
        (hf x (List.mem_cons_self x (y :: t)))]
      rw [ih (by simp) (fun p hp => hf p (List.mem_cons_of_mem x hp))]

theorem segWeight_cons (e : Str) (L : List Str) :
    segWeight (e :: L) = e.length + 1 + segWeight L := by
  simp [segWeight]

theorem segWeight_reverse (L : List Str) : segWeight L.reverse = segWeight L := by
  simp [segWeight, List.map_reverse, List.sum_reverse]

theorem segWeight_splitC (sep : Char) (s : Str) :
    segWeight (splitC sep s) = s.length + 1 := by
  induction s with
  | nil => simp [splitC, segWeight]
  | cons c t ih =>
    simp only [splitC]
    cases hsp : splitC sep t with
    | nil => exact absurd hsp (splitC_ne_nil sep t)
    | cons h0 r =>
      rw [hsp] at ih
      by_cases hc : c = sep
      · simp only [hc, if_pos rfl, segWeight_cons] at ih ⊢
        simp [segWeight] at ih ⊢
        omega
      · simp only [if_neg hc, segWeight_cons] at ih ⊢
        simp [segWeight] at ih ⊢
        omega

theorem joinWith_length (sep : Char) (L : List Str) (h : ¬ L = []) :
    (joinWith sep L).length + 1 = segWeight L := by
  induction L with
  | nil => exact absurd rfl h
  | cons x rest ih =>
    cases rest with
    | nil => simp [joinWith, segWeight]
    | cons y t =>
      simp only [joinWith, List.length_append, List.length_cons]
      rw [segWeight_cons]
      have := ih (by simp)
      simp only [joinWith] at this
      omega

theorem cleanLoop_append_nilseg (r : Bool) (segs : List Str) :
    ∀ acc, cleanLoop r (segs ++ [[]]) acc = cleanLoop r segs acc := by
  induction segs with
  | nil =>
    intro acc
    simp [cleanLoop]
  | cons s rest ih =>
    intro acc
    rw [List.cons_append]
    by_cases h1 : s = [] ∨ s = dotStr
    · simp only [cleanLoop, if_pos h1]
      exact ih acc
    · by_cases h2 : s = dotdotStr
      · simp only [cleanLoop, if_neg h1, if_pos h2]
        cases acc with
        | nil =>
          cases r with
          | true => simp only [if_true]; exact ih []
          | false => simp only [Bool.false_eq_true, if_false]; exact ih _
        | cons t acc2 =>
          cases r with
          | true => simp only [if_true]; exact ih acc2
          | false =>
            simp only [Bool.false_eq_true, if_false]
            by_cases ht : t = dotdotStr
            · simp only [if_pos ht]; exact ih _
            · simp only [if_neg ht]; exact ih acc2
      · simp only [cleanLoop, if_neg h1, if_neg h2]
        exact ih (s :: acc)

theorem cleanLoop_weight (r : Bool) (segs : List Str) :
    ∀ acc, segWeight (cleanLoop r segs acc) ≤ segWeight segs + segWeight acc := by
  induction segs with
  | nil =>
    intro acc
    simp [cleanLoop, segWeight_reverse]
  | cons s rest ih =>
    intro acc
    have hcons : segWeight (s :: rest) = s.length + 1 + segWeight rest :=
      segWeight_cons s rest
    by_cases h1 : s = [] ∨ s = dotStr
    · simp only [cleanLoop, if_pos h1]
      have := ih acc
      omega
    · by_cases h2 : s = dotdotStr
      · simp only [cleanLoop, if_neg h1, if_pos h2]
        cases acc with
        | nil =>
          cases r with
          | true =>
            simp only [if_true]
            have := ih ([] : List Str)
            omega
          | false =>
            simp only [Bool.false_eq_true, if_false]
            have := ih [dotdotStr]
            have hw : segWeight [dotdotStr] = 3 := by decide
            have hs : s.length + 1 = 3 := by rw [h2]; decide
            omega
        | cons t acc2 =>
          have hacc : segWeight (t :: acc2) = t.length + 1 + segWeight acc2 :=
            segWeight_cons t acc2
          cases r with
          | true =>
            simp only [if_true]
            have := ih acc2
            omega
          | false =>
            simp only [Bool.false_eq_true, if_false]
            by_cases ht : t = dotdotStr
            · simp only [if_pos ht]
              have := ih (s :: t :: acc2)
              have hw : segWeight (s :: t :: acc2) =
                  s.length + 1 + (t.length + 1 + segWeight acc2) := by
                rw [segWeight_cons, segWeight_cons]
              omega
            · simp only [if_neg ht]
              have := ih acc2
              omega
      · simp only [cleanLoop, if_neg h1, if_neg h2]
        have := ih (s :: acc)
        have hw : segWeight (s :: acc) = s.length + 1 + segWeight acc :=
          segWeight_cons s acc
        omega

theorem cleanLoop_normals (r : Bool) (norms : List Str) :
    ∀ acc, (∀ e ∈ norms, normalSeg e) →
      cleanLoop r norms acc = acc.reverse ++ norms := by
  induction norms with
  | nil => intro acc h; simp [cleanLoop]
  | cons e rest ih =>
    intro acc h
    obtain ⟨he1, he2, he3, _⟩ := h e (List.mem_cons_self e rest)
    have h1 : ¬ (e = [] ∨ e = dotStr) := by
      rintro (hx | hx)
      exacts [he1 hx, he2 hx]
    simp only [cleanLoop, if_neg h1, if_neg he3]
    rw [ih (e :: acc) (fun p hp => h p (List.mem_cons_of_mem e hp))]
    simp

theorem cleanLoop_dds (k : Nat) :
    ∀ (rest : List Str) (j : Nat),
      cleanLoop false (List.replicate k dotdotStr ++ rest) (List.replicate j dotdotStr) =
      cleanLoop false rest (List.replicate (k + j) dotdotStr) := by
  induction k with
  | zero => intro rest j; simp
  | succ k ih =>
    intro rest j
    rw [List.replicate_succ, List.cons_append]
    have h1 : ¬ (dotdotStr = [] ∨ dotdotStr = dotStr) := by decide
    simp only [cleanLoop, if_neg h1, if_pos rfl]
    cases j with
    | zero =>
      simp only [List.replicate_zero, Bool.false_eq_true, if_false]
      have hone : [dotdotStr] = List.replicate 1 dotdotStr := by rfl
      rw [hone, ih rest 1]
      simp
    | succ j2 =>
      rw [List.replicate_succ]
      simp only [Bool.false_eq_true, if_false, if_pos rfl]
      have h2r : dotdotStr :: dotdotStr :: List.replicate j2 dotdotStr =
          List.replicate (j2 + 2) dotdotStr := by
        rw [List.replicate_succ, List.replicate_succ]
      rw [h2r, ih rest (j2 + 2)]
      have harith : k + (j2 + 2) = k + 1 + (j2 + 1) := by omega
      rw [harith]
      simp

theorem cleanLoop_shape (r : Bool) (segs : List Str) :
    ∀ acc, (∀ p ∈ segs, ¬ '/' ∈ p) → AccShape r acc →
      SegsShape r (cleanLoop r segs acc) := by
  induction segs with
  | nil =>
    intro acc _ hacc
    obtain ⟨nr, k, heq, hn, hk⟩ := hacc
    refine ⟨k, nr.reverse, ?_, ?_, hk⟩
    · rw [cleanLoop, heq, List.reverse_append, List.reverse_replicate]
    · intro e he; exact hn e (List.mem_reverse.mp he)
  | cons s rest ih =>
    intro acc hsl hacc
    have hsl0 : ¬ '/' ∈ s := hsl s (List.mem_cons_self s rest)
    have hslr : ∀ p ∈ rest, ¬ '/' ∈ p := fun p hp => hsl p (List.mem_cons_of_mem s hp)
    by_cases h1 : s = [] ∨ s = dotStr
    · simp only [cleanLoop, if_pos h1]
      exact ih acc hslr hacc
    · by_cases h2 : s = dotdotStr
      · simp only [cleanLoop, if_neg h1, if_pos h2]
        obtain ⟨nr, k, heq, hn, hk⟩ := hacc
        cases hc : acc with
        | nil =>
          cases r with
          | true =>
            simp only [if_true]
            exact ih [] hslr ⟨[], 0, by simp, by simp, fun _ => rfl⟩
          | false =>
            simp only [Bool.false_eq_true, if_false]
            exact ih [dotdotStr] hslr
              ⟨[], 1, by simp [List.replicate_succ], by simp, by simp⟩
        | cons t acc2 =>
          rw [hc] at heq
          cases r with
          | true =>
            simp only [if_true]
            have hk0 : k = 0 := hk rfl
            rw [hk0] at heq
            simp at heq
            cases nr with
            | nil => simp at heq
            | cons a nr2 =>
              simp at heq
              refine ih acc2 hslr ⟨nr2, 0, ?_, ?_, fun _ => rfl⟩
              · simp [heq.2]
              · intro e he; exact hn e (List.mem_cons_of_mem a he)
          | false =>
            simp only [Bool.false_eq_true, if_false]
            by_cases ht : t = dotdotStr
            · simp only [if_pos ht]
              cases nr with
              | nil =>
                simp at heq
                cases k with
                | zero => simp at heq
                | succ k2 =>
                  rw [List.replicate_succ] at heq
                  injection heq with hteq hacc2
                  refine ih (s :: t :: acc2) hslr ⟨[], k2 + 2, ?_, by simp, by simp⟩
                  rw [List.nil_append, hacc2, h2, ht, List.replicate_succ, List.replicate_succ]
              | cons a nr2 =>
                simp at heq
                exact absurd (heq.1 ▸ ht) (hn a (List.mem_cons_self a nr2)).2.2.1
            · simp only [if_neg ht]
              cases nr with
              | nil =>
                simp at heq
                cases k with
                | zero => simp at heq
                | succ k2 =>
                  rw [List.replicate_succ] at heq
                  injection heq with hteq hacc2
                  exact absurd hteq ht
              | cons a nr2 =>
                simp at heq
                refine ih acc2 hslr ⟨nr2, k, heq.2, ?_, hk⟩
                intro e he; exact hn e (List.mem_cons_of_mem a he)
      · simp only [cleanLoop, if_neg h1, if_neg h2]
        obtain ⟨nr, k, heq, hn, hk⟩ := hacc
        refine ih (s :: acc) hslr ⟨s :: nr, k, ?_, ?_, hk⟩
        · rw [heq, List.cons_append]
        · intro e he
          rcases List.mem_cons.mp he with he | he
          · rw [he]
            refine ⟨?_, ?_, h2, hsl0⟩
            · intro hx; exact h1 (Or.inl hx)
            · intro hx; exact h1 (Or.inr hx)
          · exact hn e he

theorem splitC_cons_sep (sep : Char) (t : Str) :
    splitC sep (sep :: t) = [] :: splitC sep t := by
  cases hsp : splitC sep t with
  | nil => exact absurd hsp (splitC_ne_nil sep t)
  | cons h0 r => rw [splitC, hsp]; simp

theorem joinWith_ne_nil (sep : Char) (L : List Str) (h : ¬ L = [])
    (hh : ∀ e ∈ L, ¬ e = []) : ¬ joinWith sep L = [] := by
  cases L with
  | nil => exact absurd rfl h
  | cons x rest =>
    cases rest with
    | nil => exact hh x (List.mem_cons_self x [])
    | cons y t => simp [joinWith]

theorem joinWith_head (sep : Char) (x : Str) (rest : List Str) (hx : ¬ x = []) :
    (joinWith sep (x :: rest)).head? = x.head? := by
  cases rest with
  | nil => rfl
  | cons y t =>
    simp only [joinWith]
    exact List.head?_append_of_ne_nil _ hx

theorem goClean_nil : goClean [] = dotStr := by decide

theorem goClean_dot : goClean dotStr = dotStr := by decide

theorem goClean_slash : goClean slashStr = slashStr := by decide

theorem shape_elem (r : Bool) (L : List Str) (h : SegsShape r L) :
    ∀ e ∈ L, e = dotdotStr ∨ normalSeg e := by
  obtain ⟨k, norms, heq, hn, _⟩ := h
  intro e he
  rw [heq] at he
  rcases List.mem_append.mp he with he | he
  · exact Or.inl (List.eq_of_mem_replicate he)
  · exact Or.inr (hn e he)

theorem shape_elem_ne_nil (r : Bool) (L : List Str) (h : SegsShape r L) :
    ∀ e ∈ L, ¬ e = [] := by
  intro e he
  rcases shape_elem r L h e he with hd | hn
  · rw [hd]; decide
  · exact hn.1

theorem shape_elem_sepfree (r : Bool) (L : List Str) (h : SegsShape r L) :
    ∀ e ∈ L, ¬ '/' ∈ e := by
  intro e he
  rcases shape_elem r L h e he with hd | hn
  · rw [hd]; decide
  · exact hn.2.2.2

/-- The output shape of goClean on a non-empty input. -/
theorem goClean_shape (s : Str) (h : ¬ s = []) :
    SegsShape (decide (s.head? = some '/')) (cleanLoop (decide (s.head? = some '/')) (splitC '/' s) []) := by
  exact cleanLoop_shape _ (splitC '/' s) [] (mem_splitC_sepfree '/' s)
    ⟨[], 0, by simp, by simp, fun _ => rfl⟩

theorem goClean_ne_nil (s : Str) : ¬ goClean s = [] := by
  by_cases h : s = []
  · rw [h]; decide
  · simp only [goClean, if_neg h]
    cases hL : cleanLoop (decide (s.head? = some '/')) (splitC '/' s) [] with
    | nil =>
      cases hr : decide (s.head? = some '/') <;> simp <;> decide
    | cons l0 L1 =>
      have hsh := goClean_shape s h
      rw [hL] at hsh
      have hne : ∀ e ∈ l0 :: L1, ¬ e = [] := shape_elem_ne_nil _ _ hsh
      cases hr : decide (s.head? = some '/') with
      | false => simp only [Bool.false_eq_true, if_false]
                 exact joinWith_ne_nil '/' (l0 :: L1) (by simp) hne
      | true => simp

theorem goClean_length_le (s : Str) (h : ¬ s = []) :
    (goClean s).length ≤ s.length := by
  have hpos : 0 < s.length := List.length_pos.mpr h
  have hw := cleanLoop_weight (decide (s.head? = some '/')) (splitC '/' s) []
  rw [segWeight_splitC] at hw
  have hz : segWeight ([] : List Str) = 0 := by decide
  rw [hz] at hw
  simp only [goClean, if_neg h]
  cases hL : cleanLoop (decide (s.head? = some '/')) (splitC '/' s) [] with
  | nil =>
    cases hr : decide (s.head? = some '/') <;> simp [slashStr, dotStr] <;> omega
  | cons l0 L1 =>
    rw [hL] at hw
    have hjl := joinWith_length '/' (l0 :: L1) (by simp)
    cases hr : decide (s.head? = some '/') with
    | false =>
      simp only [Bool.false_eq_true, if_false]
      omega
    | true =>
      simp only [if_true, List.length_cons]
      have hhead : s.head? = some '/' := of_decide_eq_true hr
      obtain ⟨s1, hs1⟩ : ∃ s1, s = '/' :: s1 := by
        cases s with
        | nil => exact absurd rfl h
        | cons c t =>
          simp at hhead
          exact ⟨t, by rw [hhead]⟩
      have hsplit : splitC '/' s = [] :: splitC '/' s1 := by
        rw [hs1]; exact splitC_cons_sep '/' s1
      have hstep : cleanLoop (decide (s.head? = some '/')) (splitC '/' s) [] =
          cleanLoop (decide (s.head? = some '/')) (splitC '/' s1) [] := by
        rw [hsplit]
        simp [cleanLoop]
      have hw1 := cleanLoop_weight (decide (s.head? = some '/')) (splitC '/' s1) []
      rw [segWeight_splitC, hz] at hw1
      rw [← hstep, hL] at hw1
      have hlen : s.length = s1.length + 1 := by rw [hs1]; simp
      omega

theorem goClean_append_slash (q : Str) (h : ¬ q = []) :
    goClean (q ++ slashStr) = goClean q := by
  have hne : ¬ q ++ slashStr = [] := by
    simp [slashStr]
  simp only [goClean, if_neg h, if_neg hne]
  have hhead : (q ++ slashStr).head? = q.head? := List.head?_append_of_ne_nil _ h
  rw [hhead]
  have hsp : splitC '/' (q ++ slashStr) = splitC '/' q ++ [[]] :=
    splitC_append_last '/' q
  rw [hsp, cleanLoop_append_nilseg]

theorem goClean_idem (s : Str) : goClean (goClean s) = goClean s := by
  by_cases h : s = []
  · rw [h]; decide
  · have hsh := goClean_shape s h
    simp only [goClean, if_neg h]
    cases hL : cleanLoop (decide (s.head? = some '/')) (splitC '/' s) [] with
    | nil =>
      cases hr : decide (s.head? = some '/') <;> simp <;> decide
    | cons l0 L1 =>
      rw [hL] at hsh
      have hnenil : ∀ e ∈ l0 :: L1, ¬ e = [] := shape_elem_ne_nil _ _ hsh
      have hsep : ∀ e ∈ l0 :: L1, ¬ '/' ∈ e := shape_elem_sepfree _ _ hsh
      have hjoin : splitC '/' (joinWith '/' (l0 :: L1)) = l0 :: L1 :=
        splitC_join '/' (l0 :: L1) (by simp) hsep
      cases hr : decide (s.head? = some '/') with
      | true =>
        simp only [if_true]
        rw [hr] at hsh
        obtain ⟨k, norms, heq, hn, hk⟩ := hsh
        have hk0 : k = 0 := hk rfl
        rw [hk0] at heq
        simp at heq
        have hnorm : ∀ e ∈ l0 :: L1, normalSeg e := by
          rw [heq]; exact hn
        have hout : ¬ ('/' :: joinWith '/' (l0 :: L1) : Str) = [] := by simp
        simp only [goClean, if_neg hout]
        have hsp2 : splitC '/' ('/' :: joinWith '/' (l0 :: L1)) = [] :: (l0 :: L1) := by
          rw [splitC_cons_sep, hjoin]
        have hfin : ∀ (b : Bool), cleanLoop b ([] :: (l0 :: L1)) [] = l0 :: L1 := by
          intro b
          have hskip2 : cleanLoop b ([] :: (l0 :: L1)) [] = cleanLoop b (l0 :: L1) [] := by
            rw [cleanLoop]; simp
          rw [hskip2, cleanLoop_normals b _ [] hnorm]
          simp
        rw [hsp2, hfin]
        simp
      | false =>
        simp only [Bool.false_eq_true, if_false]
        rw [hr] at hsh
        obtain ⟨k, norms, heq, hn, hk⟩ := hsh
        have hout : ¬ joinWith '/' (l0 :: L1) = [] :=
          joinWith_ne_nil '/' (l0 :: L1) (by simp) hnenil
        simp only [goClean, if_neg hout]
        have hl0ne : ¬ l0 = [] := hnenil l0 (List.mem_cons_self l0 L1)
        have hhead : (joinWith '/' (l0 :: L1)).head? = l0.head? :=
          joinWith_head '/' l0 L1 hl0ne
        have hl0head : ¬ l0.head? = some '/' := by
          rcases shape_elem _ _ (⟨k, norms, heq, hn, hk⟩ : SegsShape false (l0 :: L1))
              l0 (List.mem_cons_self l0 L1) with hd | hnl
          · rw [hd]; decide
          · cases l0 with
            | nil => exact absurd rfl hl0ne
            | cons c t =>
              intro hx
              simp at hx
              exact hnl.2.2.2 (by rw [hx]; exact List.mem_cons_self '/' t)
        have hrfalse : decide ((joinWith '/' (l0 :: L1)).head? = some '/') = false := by
          rw [hhead]
          exact decide_eq_false hl0head
        rw [hrfalse, hjoin]
        have hloop : cleanLoop false (l0 :: L1) [] = l0 :: L1 := by
          rw [heq]
          calc cleanLoop false (List.replicate k dotdotStr ++ norms) []
              = cleanLoop false (List.replicate k dotdotStr ++ norms)
                  (List.replicate 0 dotdotStr) := by simp
            _ = cleanLoop false norms (List.replicate (k + 0) dotdotStr) :=
                cleanLoop_dds k norms 0
            _ = (List.replicate (k + 0) dotdotStr).reverse ++ norms :=
                cleanLoop_normals false norms _ hn
            _ = List.replicate k dotdotStr ++ norms := by
                rw [List.reverse_replicate]; simp
        simp only [Bool.false_eq_true, if_false]
        rw [hloop]

theorem goDir_ne_nil (s : Str) : ¬ goDir s = [] := by
  simp only [goDir]
  by_cases hp : ((s.reverse.dropWhile (fun c => !(decide (c = '/')))).reverse : Str) = []
  · rw [if_pos hp]; decide
  · rw [if_neg hp]; exact goClean_ne_nil _

theorem goDir_clean (s : Str) : goClean (goDir s) = goDir s := by
  simp only [goDir]
  by_cases hp : ((s.reverse.dropWhile (fun c => !(decide (c = '/')))).reverse : Str) = []
  · rw [if_pos hp]; exact goClean_dot
  · rw [if_neg hp]; exact goClean_idem _

theorem goDir_append_slash (q : Str) (h : ¬ q = []) :
    goDir (q ++ slashStr) = goClean q := by
  simp only [goDir]
  have hrev : (q ++ slashStr).reverse = '/' :: q.reverse := by simp [slashStr]
  rw [hrev, List.dropWhile_cons]
  simp only [decide_True, Bool.not_true, Bool.false_eq_true, if_false]
  have hpre : (('/' :: q.reverse : Str)).reverse = q ++ slashStr := by
    simp [slashStr]
  rw [hpre]
  have hne : ¬ (q ++ slashStr : Str) = [] := by simp [slashStr]
  rw [if_neg hne]
  exact goClean_append_slash q h

theorem goEndsWith_single_iff (p : Str) (c : Char) :
    goEndsWith p [c] = true ↔ p.reverse.head? = some c := by
  cases hrev : p.reverse with
  | nil =>
    have hp : p = [] := by
      have h2 := congrArg List.reverse hrev
      simpa using h2
    subst hp
    simp [goEndsWith]
  | cons a rest =>
    have hp : p = rest.reverse ++ [a] := by
      have h2 := congrArg List.reverse hrev
      simpa using h2
    rw [hp]
    have hdrop : ((rest.reverse ++ [a] : Str)).drop ((rest.reverse ++ [a]).length - 1) = [a] := by
      simp
    simp [goEndsWith, hdrop]

theorem trimTrailing_noop (s suf : Str) (h : goEndsWith s suf = false) :
    goTrimTrailing s suf = s := by
  simp [goTrimTrailing, h]

theorem goDir_ne_self (p : Str) (hends : goEndsWith p slashStr = false)
    (hdot : ¬ p = dotStr) : ¬ goDir p = p := by
  by_cases hsl : '/' ∈ p
  · have hpne : ¬ p = [] := fun hx => by rw [hx] at hsl; simp at hsl
    have hhead : ¬ p.reverse.head? = some '/' := by
      intro hx
      have := (goEndsWith_single_iff p '/').mpr hx
      rw [show ([ '/' ] : Str) = slashStr from rfl] at this
      rw [this] at hends
      simp at hends
    have hdw : ¬ (p.reverse.dropWhile (fun c => !(decide (c = '/')))) = [] := by
      intro hx
      rw [List.dropWhile_eq_nil_iff] at hx
      have := hx '/' (List.mem_reverse.mpr hsl)
      simp at this
    have hlen : (p.reverse.takeWhile (fun c => !(decide (c = '/')))).length +
        (p.reverse.dropWhile (fun c => !(decide (c = '/')))).length = p.length := by
      have h2 := congrArg List.length
        (List.takeWhile_append_dropWhile (fun c => !(decide (c = '/'))) p.reverse)
      rw [List.length_append, List.length_reverse] at h2
      exact h2
    have htw : 1 ≤ (p.reverse.takeWhile (fun c => !(decide (c = '/')))).length := by
      cases hr2 : p.reverse with
      | nil =>
        have : p = [] := by
          have h2 := congrArg List.reverse hr2
          simpa using h2
        exact absurd this hpne
      | cons a rest =>
        have ha : ¬ a = '/' := by
          intro hx
          exact hhead (by rw [hr2, hx]; rfl)
        rw [List.takeWhile_cons]
        simp [ha]
    have hprene : ¬ ((p.reverse.dropWhile (fun c => !(decide (c = '/')))).reverse : Str) = [] := by
      intro hx
      exact hdw (by simpa using congrArg List.reverse hx)
    simp only [goDir]
    rw [if_neg hprene]
    intro hx
    have hlc := goClean_length_le _ hprene
    rw [hx] at hlc
    have : (p.reverse.dropWhile (fun c => !(decide (c = '/')))).reverse.length =
        p.length - (p.reverse.takeWhile (fun c => !(decide (c = '/')))).length := by
      simp only [List.length_reverse]
      omega
    rw [this] at hlc
    omega
  · have hdw : (p.reverse.dropWhile (fun c => !(decide (c = '/')))) = [] := by
      rw [List.dropWhile_eq_nil_iff]
      intro a ha
      have : ¬ a = '/' := by
        intro hx
        exact hsl (by rw [← hx]; exact List.mem_reverse.mp ha)
      simp [this]
    simp only [goDir, hdw]
    rw [if_pos (by simp)]
    intro hx
    exact hdot hx.symm

theorem getSet_self {α : Type} (l : List α) (i : Nat) (a : α) (h : i < l.length) :
    (l.set i a)[i]? = some a := by
  simp [List.getElem?_set_self, h]

theorem passBCond_iff (s : List Node) (p : Str) :
    passBCond s p = true ↔
      ∃ n ∈ s, ¬ n.Path = p ∧ ¬ goDir n.Path = dotStr ∧ goDir n.Path = p := by
  simp [passBCond, List.any_eq_true]

theorem markDir_IsDir (n : Node) : (markDir n).IsDir = true := rfl

theorem markDir_Comment (n : Node) : (markDir n).Comment = n.Comment := rfl

theorem noEvid_passBStep (p : Str) (s : List Node) (i : Nat)
    (h : ∀ n ∈ s, n.Path = p ∨ ¬ goDir n.Path = p) :
    ∀ m ∈ passBStep s i, m.Path = p ∨ ¬ goDir m.Path = p := by
  intro m hm
  simp only [passBStep] at hm
  cases hg : s[i]? with
  | none => rw [hg] at hm; exact h m hm
  | some n0 =>
    rw [hg] at hm
    dsimp only [] at hm
    by_cases hd : n0.IsDir = true
    · rw [if_pos hd] at hm; exact h m hm
    · rw [if_neg hd] at hm
      by_cases hc : passBCond s n0.Path = true
      · rw [if_pos hc] at hm
        rcases List.mem_or_eq_of_mem_set hm with hms | hme
        · exact h m hms
        · obtain ⟨F, hF, hFne, hFdot, hFdir⟩ := (passBCond_iff s n0.Path).mp hc
          have hqne : ¬ n0.Path = [] := by
            intro hx; rw [hx] at hFdir; exact goDir_ne_nil F.Path hFdir
          have hqclean : goClean n0.Path = n0.Path := by
            rw [← hFdir]; exact goDir_clean F.Path
          by_cases hsl : goEndsWith n0.Path slashStr = true
          · have hmp : m.Path = n0.Path := by rw [hme]; simp [markDir, hsl]
            rw [hmp]
            exact h n0 (memOfGet hg)
          · have hmp : m.Path = n0.Path ++ slashStr := by
              rw [hme]; simp [markDir, hsl]
            right
            rw [hmp, goDir_append_slash _ hqne, hqclean]
            intro hpq
            rcases h F hF with h1 | h2
            · exact hFne (h1.trans hpq.symm)
            · exact h2 (hFdir.trans hpq)
      · rw [if_neg hc] at hm; exact h m hm

theorem noEvid_foldl (p : Str) (is : List Nat) :
    ∀ s, (∀ n ∈ s, n.Path = p ∨ ¬ goDir n.Path = p) →
    ∀ m ∈ is.foldl passBStep s, m.Path = p ∨ ¬ goDir m.Path = p := by
  induction is with
  | nil => intro s h; exact h
  | cons i is ih =>
    intro s h
    rw [List.foldl_cons]
    exact ih _ (noEvid_passBStep p s i h)

theorem passBStep_get_ne (s : List Node) (i j : Nat) (hne : ¬ i = j) :
    (passBStep s i)[j]? = s[j]? := by
  simp only [passBStep]
  cases hg : s[i]? with
  | none => rfl
  | some n0 =>
    dsimp only []
    by_cases hd : n0.IsDir = true
    · rw [if_pos hd]
    · rw [if_neg hd]
      by_cases hc : passBCond s n0.Path = true
      · rw [if_pos hc]
        exact List.getElem?_set_ne hne
      · rw [if_neg hc]

theorem passB_foldl_get_notmem (is : List Nat) :
    ∀ (s : List Node) (j : Nat), ¬ j ∈ is →
      (is.foldl passBStep s)[j]? = s[j]? := by
  induction is with
  | nil => intro s j _; rfl
  | cons i is ih =>
    intro s j h
    have h1 : ¬ j ∈ is := fun hx => h (List.mem_cons_of_mem i hx)
    have h2 : ¬ i = j := fun hx => h (hx ▸ List.mem_cons_self i is)
    rw [List.foldl_cons, ih _ j h1, passBStep_get_ne s i j h2]

theorem passBStep_length (s : List Node) (i : Nat) :
    (passBStep s i).length = s.length := by
  simp only [passBStep]
  cases hg : s[i]? with
  | none => rfl
  | some n0 =>
    dsimp only []
    by_cases hd : n0.IsDir = true
    · rw [if_pos hd]
    · rw [if_neg hd]
      by_cases hc : passBCond s n0.Path = true
      · rw [if_pos hc]; exact List.length_set ..
      · rw [if_neg hc]

theorem passB_foldl_length (is : List Nat) :
    ∀ s : List Node, (is.foldl passBStep s).length = s.length := by
  induction is with
  | nil => intro s; rfl
  | cons i is ih =>
    intro s
    rw [List.foldl_cons, ih, passBStep_length]

theorem range_split (n i : Nat) (h : i < n) :
    List.range n = List.range i ++ i :: (List.range (n - i - 1)).map (fun k => i + 1 + k) := by
  have h1 : n = (i + 1) + (n - i - 1) := by omega
  conv_lhs => rw [h1]
  rw [List.range_add, List.range_succ]
  simp

/-- The central fact about the structural pass: an entry that the pass left
    unmarked is unchanged, and either its path is a dot or no entry of the
    final list witnesses it as a parent directory. -/
theorem passB_unmarked (s : List Node) (i : Nat) (a : Node)
    (hg : (passB s)[i]? = some a) (hnd : a.IsDir = false) :
    s[i]? = some a ∧
      (a.Path = dotStr ∨ ∀ m ∈ passB s, m.Path = a.Path ∨ ¬ goDir m.Path = a.Path) := by
  have hplen : (passB s).length = s.length := passB_foldl_length _ s
  have hi : i < s.length := by
    by_contra hx
    have hnone : (passB s)[i]? = none := by
      apply List.getElem?_eq_none
      omega
    rw [hnone] at hg
    cases hg
  have hsplit := range_split s.length i hi
  have hdecomp : passB s =
      ((List.range (s.length - i - 1)).map (fun k => i + 1 + k)).foldl passBStep
        (passBStep ((List.range i).foldl passBStep s) i) := by
    rw [passB, hsplit, List.foldl_append, List.foldl_cons]
  have hmidget : ((List.range i).foldl passBStep s)[i]? = s[i]? :=
    passB_foldl_get_notmem _ s i (by simp [List.mem_range])
  have hmidlen : ((List.range i).foldl passBStep s).length = s.length :=
    passB_foldl_length _ s
  have hnotin : ¬ i ∈ (List.range (s.length - i - 1)).map (fun k => i + 1 + k) := by
    simp only [List.mem_map, List.mem_range]
    rintro ⟨k, _, hk⟩
    omega
  have hga : (passBStep ((List.range i).foldl passBStep s) i)[i]? = some a := by
    rw [← passB_foldl_get_notmem _ _ i hnotin, ← hdecomp]
    exact hg
  cases hsg : s[i]? with
  | none =>
    rw [hsg] at hmidget
    have hid : passBStep ((List.range i).foldl passBStep s) i =
        (List.range i).foldl passBStep s := by
      simp only [passBStep, hmidget]
    rw [hid, hmidget] at hga
    cases hga
  | some n0 =>
    rw [hsg] at hmidget
    by_cases hd : n0.IsDir = true
    · have hid : passBStep ((List.range i).foldl passBStep s) i =
          (List.range i).foldl passBStep s := by
        simp only [passBStep, hmidget]
        rw [if_pos hd]
      rw [hid, hmidget] at hga
      injection hga with hae
      rw [← hae] at hnd
      rw [hd] at hnd
      cases hnd
    · by_cases hc : passBCond ((List.range i).foldl passBStep s) n0.Path = true
      · have hset : passBStep ((List.range i).foldl passBStep s) i =
            ((List.range i).foldl passBStep s).set i (markDir n0) := by
          simp only [passBStep, hmidget]
          rw [if_neg hd, if_pos hc]
        rw [hset] at hga
        rw [getSet_self _ i (markDir n0) (by omega)] at hga
        injection hga with hae
        rw [← hae] at hnd
        cases hnd
      · have hid : passBStep ((List.range i).foldl passBStep s) i =
            (List.range i).foldl passBStep s := by
          simp only [passBStep, hmidget]
          rw [if_neg hd, if_neg hc]
        rw [hid, hmidget] at hga
        injection hga with hae
        subst hae
        refine ⟨rfl, ?_⟩
        by_cases hpd : n0.Path = dotStr
        · exact Or.inl hpd
        · refine Or.inr ?_
          have hne : ∀ F ∈ (List.range i).foldl passBStep s,
              F.Path = n0.Path ∨ ¬ goDir F.Path = n0.Path := by
            intro F hF
            by_cases hfp : F.Path = n0.Path
            · exact Or.inl hfp
            · refine Or.inr ?_
              intro hgd
              apply hc
              rw [passBCond_iff]
              refine ⟨F, hF, hfp, ?_, hgd⟩
              rw [hgd]
              exact hpd
          have hrest := noEvid_foldl n0.Path
            ((List.range (s.length - i - 1)).map (fun k => i + 1 + k)) _ hne
          intro m hm
          apply hrest
          rw [hdecomp] at hm
          rw [hid] at hm
          exact hm

theorem passBStep_id_of (m : List Node) (i : Nat)
    (h : ∀ n, m[i]? = some n → n.IsDir = true ∨ passBCond m n.Path = false) :
    passBStep m i = m := by
  simp only [passBStep]
  cases hg : m[i]? with
  | none => rfl
  | some n0 =>
    dsimp only []
    rcases h n0 hg with hd | hc
    · rw [if_pos hd]
    · by_cases hd : n0.IsDir = true
      · rw [if_pos hd]
      · rw [if_neg hd, if_neg (by rw [hc]; simp)]

theorem passB_foldl_id (is : List Nat) (m : List Node)
    (h : ∀ (i : Nat) (n : Node), m[i]? = some n →
      n.IsDir = true ∨ passBCond m n.Path = false) :
    is.foldl passBStep m = m := by
  induction is with
  | nil => rfl
  | cons i is ih =>
    rw [List.foldl_cons, passBStep_id_of m i (h i), ih]

theorem passB_idem (s : List Node) : passB (passB s) = passB s := by
  have h : ∀ (i : Nat) (n : Node), (passB s)[i]? = some n →
      n.IsDir = true ∨ passBCond (passB s) n.Path = false := by
    intro i n hg
    by_cases hd : n.IsDir = true
    · exact Or.inl hd
    · have hnd : n.IsDir = false := by revert hd; cases n.IsDir <;> simp
      obtain ⟨_, hdisj⟩ := passB_unmarked s i n hg hnd
      refine Or.inr ?_
      cases hb : passBCond (passB s) n.Path with
      | false => rfl
      | true =>
        exfalso
        obtain ⟨F, hF, hFne, hFdot, hFdir⟩ := (passBCond_iff _ _).mp hb
        rcases hdisj with hpd | hne
        · exact hFdot (hpd ▸ hFdir)
        · rcases hne F hF with h1 | h2
          · exact hFne h1
          · exact h2 hFdir
  rw [passB]
  exact passB_foldl_id _ _ h

theorem endsWith_append_slash (q : Str) :
    goEndsWith (q ++ slashStr) slashStr = true := by
  rw [show slashStr = ['/'] from rfl, goEndsWith_single_iff]
  simp

theorem markDir_idem (n : Node) : markDir (markDir n) = markDir n := by
  by_cases h : goEndsWith n.Path slashStr = true
  · simp [markDir, h]
  · simp [markDir, h, endsWith_append_slash]

theorem passAOne_dir (n : Node) (h : n.IsDir = true) : passAOne n = n := by
  simp [passAOne, h]

theorem passAOne_idem (n : Node) : passAOne (passAOne n) = passAOne n := by
  by_cases hcond : n.IsDir = false ∧ containsC '.' (goBase n.Path) = false ∧
      memStr (goBase n.Path) ppDirNames = true
  · have h1 : passAOne n = markDir n := by simp only [passAOne]; rw [if_pos hcond]
    rw [h1]
    exact passAOne_dir _ (markDir_IsDir n)
  · have h1 : passAOne n = n := by simp only [passAOne]; rw [if_neg hcond]
    rw [h1]
    exact h1

theorem passA_idem (ns : List Node) : passA (passA ns) = passA ns := by
  induction ns with
  | nil => rfl
  | cons n t ih =>
    simp only [passA, List.map_cons] at ih ⊢
    rw [passAOne_idem, ih]

theorem passB_foldl_shape (is : List Nat) :
    ∀ (s : List Node) (j : Nat),
      (is.foldl passBStep s)[j]? = s[j]? ∨
      (∃ n, s[j]? = some n ∧ (is.foldl passBStep s)[j]? = some (markDir n)) := by
  induction is with
  | nil => intro s j; exact Or.inl rfl
  | cons i is ih =>
    intro s j
    rw [List.foldl_cons]
    have hstepcase : (passBStep s i)[j]? = s[j]? ∨
        (∃ n0, s[j]? = some n0 ∧ (passBStep s i)[j]? = some (markDir n0)) := by
      by_cases hij : i = j
      · subst hij
        cases hg : s[i]? with
        | none =>
          left
          have hid : passBStep s i = s := by simp only [passBStep, hg]
          rw [hid]
          exact hg
        | some n0 =>
          by_cases hd : n0.IsDir = true
          · left
            have hid : passBStep s i = s := by
              simp only [passBStep, hg]; rw [if_pos hd]
            rw [hid]
            exact hg
          · by_cases hc : passBCond s n0.Path = true
            · right
              refine ⟨n0, rfl, ?_⟩
              have hset : passBStep s i = s.set i (markDir n0) := by
                simp only [passBStep, hg]; rw [if_neg hd, if_pos hc]
              rw [hset]
              apply getSet_self
              by_contra hx
              rw [List.getElem?_eq_none (by omega)] at hg
              cases hg
            · left
              have hid : passBStep s i = s := by
                simp only [passBStep, hg]; rw [if_neg hd, if_neg hc]
              rw [hid]
              exact hg
      · left
        exact passBStep_get_ne s i j hij
    rcases hstepcase with h1 | ⟨n0, hn1, hn2⟩
    · rcases ih (passBStep s i) j with h2 | ⟨n, hn1, hn2⟩
      · exact Or.inl (h2.trans h1)
      · right
        exact ⟨n, h1 ▸ hn1, hn2⟩
    · rcases ih (passBStep s i) j with h2 | ⟨n, hn3, hn4⟩
      · right
        exact ⟨n0, hn1, h2.trans hn2⟩
      · right
        rw [hn2] at hn3
        injection hn3 with hne
        refine ⟨n0, hn1, ?_⟩
        rw [hn4, ← hne, markDir_idem]

theorem passB_shape (s : List Node) (j : Nat) :
    (passB s)[j]? = s[j]? ∨
    (∃ n, s[j]? = some n ∧ (passB s)[j]? = some (markDir n)) := by
  rw [passB]
  exact passB_foldl_shape _ s j

theorem passA_passB_passA (ns : List Node) :
    passA (passB (passA ns)) = passB (passA ns) := by
  apply List.ext_getElem?
  intro j
  have hmap : (passA (passB (passA ns)))[j]? =
      ((passB (passA ns))[j]?).map passAOne := by
    simp [passA]
  rw [hmap]
  rcases passB_shape (passA ns) j with h1 | ⟨n, hn1, hn2⟩
  · rw [h1]
    have hmap2 : (passA ns)[j]? = (ns[j]?).map passAOne := by simp [passA]
    rw [hmap2]
    cases hg : ns[j]? with
    | none => rfl
    | some x => simp [passAOne_idem]
  · rw [hn2]
    simp [passAOne_dir _ (markDir_IsDir n)]

/-- C5: the directory classifier is idempotent: running
    postProcessDirectories on its own output changes nothing. -/
theorem claim_C5 : ∀ ns : List Node,
    postProcessDirectories (postProcessDirectories ns) = postProcessDirectories ns := by
  intro ns
  show passB (passA (passB (passA ns))) = passB (passA ns)
  rw [passA_passB_passA]
  exact passB_idem _

theorem passA_wf (ns : List Node)
    (h : ∀ n ∈ ns, n.IsDir = false → goEndsWith n.Path slashStr = false) :
    ∀ n ∈ passA ns, n.IsDir = false → goEndsWith n.Path slashStr = false := by
  intro n hn hnd
  rw [passA] at hn
  obtain ⟨x, hx, hxe⟩ := List.mem_map.mp hn
  by_cases hcond : x.IsDir = false ∧ containsC '.' (goBase x.Path) = false ∧
      memStr (goBase x.Path) ppDirNames = true
  · have he : n = markDir x := by rw [← hxe]; simp only [passAOne]; rw [if_pos hcond]
    rw [he, markDir_IsDir] at hnd
    cases hnd
  · have he : n = x := by rw [← hxe]; simp only [passAOne]; rw [if_neg hcond]
    rw [he] at hnd ⊢
    exact h x hx hnd

/-- C1 amended: after the directory classifier (and before the path
    reconciler), for an entry set in which no file path carries a trailing
    slash, whenever the slash-stripped path of entry a equals the parent
    directory (filepath.Dir, a dot meaning no parent) of entry b's path,
    entry a is marked as a directory.  The original claim about the final
    output of Parse is refuted by claim_C1_counterexample: the path
    reconciler can move a file onto the parent path of another entry. -/
theorem claim_C1_amended (ns : List Node)
    (hwf : ∀ n ∈ ns, n.IsDir = false → goEndsWith n.Path slashStr = false)
    (i j : Nat) (a b : Node)
    (ha : (postProcessDirectories ns)[i]? = some a)
    (hb : (postProcessDirectories ns)[j]? = some b)
    (hdot : ¬ goDir b.Path = dotStr)
    (hpar : goTrimTrailing a.Path slashStr = goDir b.Path) :
    a.IsDir = true := by
  by_contra hx
  have hnd : a.IsDir = false := by revert hx; cases a.IsDir <;> simp
  have hppd : postProcessDirectories ns = passB (passA ns) := rfl
  rw [hppd] at ha hb
  obtain ⟨hsa, hdisj⟩ := passB_unmarked (passA ns) i a ha hnd
  have hawf : goEndsWith a.Path slashStr = false :=
    passA_wf ns hwf a (memOfGet hsa) hnd
  have htrim : goTrimTrailing a.Path slashStr = a.Path := trimTrailing_noop _ _ hawf
  rw [htrim] at hpar
  rcases hdisj with hpd | hne
  · exact hdot (by rw [← hpar]; exact hpd)
  · rcases hne b (memOfGet hb) with h1 | h2
    · have hadot : ¬ a.Path = dotStr := by
        intro hx2
        exact hdot (hpar.symm.trans hx2)
      apply goDir_ne_self a.Path hawf hadot
      rw [h1] at hpar
      exact hpar.symm
    · exact h2 hpar.symm

/-- Witness for C1 amended: on the concrete set with file entries a and a/b
    the classifier marks the first entry, and the theorem applies with all
    hypotheses discharged. -/
theorem claim_C1_amended_witness :
    (⟨strL "a/", true, []⟩ : Node).IsDir = true :=
  claim_C1_amended [⟨strL "a", false, []⟩, ⟨strL "a/b", false, []⟩]
    (by decide) 0 1 ⟨strL "a/", true, []⟩ ⟨strL "a/b", false, []⟩
    (by decide) (by decide) (by decide) (by decide)

/-- C10: the lexical pass of postProcessDirectories never touches an entry
    whose base name contains a dot: such a non-directory entry (for example
    one named .github, despite .github being in the conventional table) is
    returned unchanged by the pass, flag and path included. -/
theorem claim_C10 (ns : List Node) (i : Nat) (n : Node)
    (hg : ns[i]? = some n) (hnd : n.IsDir = false)
    (hdotted : containsC '.' (goBase n.Path) = true) :
    (passA ns)[i]? = some n := by
  have hmap : (passA ns)[i]? = (ns[i]?).map passAOne := by simp [passA]
  rw [hmap, hg]
  have hone : passAOne n = n := by
    simp only [passAOne]
    rw [if_neg]
    rintro ⟨_, hc, _⟩
    rw [hdotted] at hc
    cases hc
  simp [hone]

/-- Witness for C10 at the entry .github. -/
theorem claim_C10_witness :
    (passA [⟨strL ".github", false, []⟩])[0]? = some ⟨strL ".github", false, []⟩ :=
  claim_C10 [⟨strL ".github", false, []⟩] 0 ⟨strL ".github", false, []⟩
    (by decide) (by decide) (by decide)

theorem fixOneNode_IsDir (nodes : List Node) (n : Node) :
    (fixOneNode nodes n).IsDir = n.IsDir := by
  simp only [fixOneNode]
  split <;> rfl

theorem fixOneNode_Comment (nodes : List Node) (n : Node) :
    (fixOneNode nodes n).Comment = n.Comment := by
  simp only [fixOneNode]
  split <;> rfl

theorem any_congr_dir {s t : List Node}
    (h : List.Forall₂ dirRel s t) (f : Str → Bool) :
    (s.any (fun d => d.IsDir && f d.Path)) = (t.any (fun d => d.IsDir && f d.Path)) := by
  induction h with
  | nil => rfl
  | cons hxy hrest ih =>
    rename_i a b l1 l2
    simp only [List.any_cons, ih]
    obtain ⟨hd, himp⟩ := hxy
    by_cases hbd : b.IsDir = true
    · rw [himp hbd]
    · have hbf : b.IsDir = false := by revert hbd; cases b.IsDir <;> simp
      rw [hd, hbf]
      simp

theorem hasDirWithPath_congr {s t : List Node} (h : List.Forall₂ dirRel s t) :
    hasDirWithPath s = hasDirWithPath t := by
  funext target
  exact any_congr_dir h (fun p => decide (goTrimTrailing p slashStr = target))

theorem hasTestProblemDir_congr {s t : List Node} (h : List.Forall₂ dirRel s t) :
    hasTestProblemDir s = hasTestProblemDir t :=
  any_congr_dir h (fun p =>
    decide (goTrimTrailing p slashStr = strL "testdata/problems") ||
    decide (goTrimTrailing p slashStr = strL "problems"))

theorem fixOneNode_congr {s t : List Node} (h : List.Forall₂ dirRel s t) (n : Node) :
    fixOneNode s n = fixOneNode t n := by
  simp only [fixOneNode]
  rw [hasTestProblemDir_congr h, hasDirWithPath_congr h]

theorem forall2_refl_dir (l : List Node) : List.Forall₂ dirRel l l := by
  induction l with
  | nil => exact List.Forall₂.nil
  | cons x l ih => exact List.Forall₂.cons ⟨rfl, fun _ => rfl⟩ ih

theorem forall2_set_dir {s t : List Node} (h : List.Forall₂ dirRel s t) :
    ∀ (i : Nat) (a b : Node), t[i]? = some b → dirRel a b →
      List.Forall₂ dirRel (s.set i a) t := by
  induction h with
  | nil => intro i a b hb; simp at hb
  | cons hxy hrest ih =>
    rename_i x y l1 l2
    intro i a b hb hr
    cases i with
    | zero =>
      simp at hb
      rw [List.set_cons_zero]
      exact List.Forall₂.cons (hb ▸ hr) hrest
    | succ i2 =>
      simp at hb
      rw [List.set_cons_succ]
      exact List.Forall₂.cons hxy (ih i2 a b hb hr)

theorem fix_fold_char (ns : List Node) (todo : List Nat) :
    ∀ s : List Node, todo.Nodup →
      List.Forall₂ dirRel s ns →
      (∀ j ∈ todo, s[j]? = ns[j]?) →
      ∀ j : Nat, (todo.foldl fixStep s)[j]? =
        if j ∈ todo
        then (ns[j]?).map (fun n => if n.IsDir = true then n else fixOneNode ns n)
        else s[j]? := by
  induction todo with
  | nil => intro s _ _ _ j; simp
  | cons t todo ih =>
    intro s hnd hrel hagree j
    have hnodup := List.nodup_cons.mp hnd
    have hst : s[t]? = ns[t]? := hagree t (List.mem_cons_self t todo)
    rw [List.foldl_cons]
    cases hnt : ns[t]? with
    | none =>
      have hs2 : fixStep s t = s := by
        simp only [fixStep, hst.trans hnt]
      rw [hs2]
      rw [ih s hnodup.2 hrel (fun j2 hj2 => hagree j2 (List.mem_cons_of_mem _ hj2)) j]
      by_cases hjt : j = t
      · subst hjt
        rw [if_neg hnodup.1, if_pos (List.mem_cons_self j todo), hnt, hst.trans hnt]
        rfl
      · by_cases hjm : j ∈ todo
        · rw [if_pos hjm, if_pos (List.mem_cons_of_mem t hjm)]
        · rw [if_neg hjm, if_neg (by simp [List.mem_cons, hjt, hjm])]
    | some n =>
      by_cases hdir : n.IsDir = true
      · have hs2 : fixStep s t = s := by
          simp only [fixStep, hst.trans hnt]
          rw [if_pos hdir]
        rw [hs2]
        rw [ih s hnodup.2 hrel (fun j2 hj2 => hagree j2 (List.mem_cons_of_mem _ hj2)) j]
        by_cases hjt : j = t
        · subst hjt
          rw [if_neg hnodup.1, if_pos (List.mem_cons_self j todo), hnt, hst.trans hnt]
          simp [hdir]
        · by_cases hjm : j ∈ todo
          · rw [if_pos hjm, if_pos (List.mem_cons_of_mem t hjm)]
          · rw [if_neg hjm, if_neg (by simp [List.mem_cons, hjt, hjm])]
      · have hs2 : fixStep s t = s.set t (fixOneNode s n) := by
          simp only [fixStep, hst.trans hnt]
          rw [if_neg hdir]
        have hcongr : fixOneNode s n = fixOneNode ns n := fixOneNode_congr hrel n
        have hrel2 : List.Forall₂ dirRel (s.set t (fixOneNode s n)) ns :=
          forall2_set_dir hrel t _ n hnt
            ⟨fixOneNode_IsDir s n, fun hcontr => absurd hcontr hdir⟩
        have hagree2 : ∀ j2 ∈ todo, (s.set t (fixOneNode s n))[j2]? = ns[j2]? := by
          intro j2 hj2
          rw [List.getElem?_set_ne (show ¬ t = j2 from fun hx => hnodup.1 (hx ▸ hj2))]
          exact hagree j2 (List.mem_cons_of_mem _ hj2)
        rw [hs2]
        rw [ih _ hnodup.2 hrel2 hagree2 j]
        by_cases hjt : j = t
        · subst hjt
          rw [if_neg hnodup.1, if_pos (List.mem_cons_self j todo)]
          have hlt : j < s.length := by
            by_contra hx
            rw [List.getElem?_eq_none (by omega)] at hst
            rw [hnt] at hst
            cases hst
          rw [getSet_self _ _ _ hlt, hnt, hcongr]
          simp [hdir]
        · by_cases hjm : j ∈ todo
          · rw [if_pos hjm, if_pos (List.mem_cons_of_mem t hjm)]
          · rw [if_neg hjm, if_neg (by simp [List.mem_cons, hjt, hjm])]
            rw [List.getElem?_set_ne (fun hx => hjt hx.symm)]

theorem fixNestedPaths_char (ns : List Node) (j : Nat) :
    (fixNestedPaths ns)[j]? =
      (ns[j]?).map (fun n => if n.IsDir = true then n else fixOneNode ns n) := by
  have h := fix_fold_char ns (List.range ns.length) ns (List.nodup_range _)
    (forall2_refl_dir ns) (fun _ _ => rfl) j
  rw [fixNestedPaths] at *
  rw [h]
  by_cases hj : j ∈ List.range ns.length
  · rw [if_pos hj]
  · rw [if_neg hj]
    have hx : ns[j]? = none := by
      apply List.getElem?_eq_none
      simp [List.mem_range] at hj
      omega
    rw [hx]
    rfl

theorem fixStep_length (s : List Node) (i : Nat) :
    (fixStep s i).length = s.length := by
  simp only [fixStep]
  cases hg : s[i]? with
  | none => rfl
  | some n0 =>
    dsimp only []
    by_cases hd : n0.IsDir = true
    · rw [if_pos hd]
    · rw [if_neg hd]; exact List.length_set ..

theorem fixNestedPaths_length (ns : List Node) :
    (fixNestedPaths ns).length = ns.length := by
  rw [fixNestedPaths]
  generalize List.range ns.length = is
  induction is generalizing ns with
  | nil => rfl
  | cons i is ih =>
    rw [List.foldl_cons]
    rw [show (List.foldl fixStep (fixStep ns i) is).length = (fixStep ns i).length from ih _]
    exact fixStep_length ns i

theorem countC_append (c : Char) (a b : Str) :
    countC c (a ++ b) = countC c a + countC c b := by
  simp [countC, List.filter_append]

/-- C6: the path reconciler is a frame-preserving per-index rewrite: the
    length is unchanged and each output entry keeps the input entry's flag
    and comment; an entry can differ from its input only when the input was
    a file. -/
theorem claim_C6 (ns : List Node) :
    (fixNestedPaths ns).length = ns.length ∧
    ∀ (i : Nat) (a b : Node), ns[i]? = some a → (fixNestedPaths ns)[i]? = some b →
      b.IsDir = a.IsDir ∧ b.Comment = a.Comment ∧ (¬ b = a → a.IsDir = false) := by
  refine ⟨fixNestedPaths_length ns, ?_⟩
  intro i a b ha hb
  rw [fixNestedPaths_char, ha] at hb
  simp only [Option.map_some'] at hb
  injection hb with hbe
  by_cases hd : a.IsDir = true
  · rw [if_pos hd] at hbe
    subst hbe
    exact ⟨rfl, rfl, fun hne => absurd rfl hne⟩
  · rw [if_neg hd] at hbe
    subst hbe
    refine ⟨fixOneNode_IsDir ns a, fixOneNode_Comment ns a, fun _ => ?_⟩
    revert hd
    cases a.IsDir <;> simp

/-- Witness for C6 at a one-element list that the reconciler leaves
    unchanged. -/
theorem claim_C6_witness :
    (false = false ∧ strL "hi" = strL "hi" ∧
      (¬ (⟨strL "x.go", false, strL "hi"⟩ : Node) = ⟨strL "x.go", false, strL "hi"⟩ →
        (⟨strL "x.go", false, strL "hi"⟩ : Node).IsDir = false)) :=
  (claim_C6 [⟨strL "x.go", false, strL "hi"⟩]).2 0
    ⟨strL "x.go", false, strL "hi"⟩ ⟨strL "x.go", false, strL "hi"⟩
    (by decide) (by decide)

/-- Every path the reconciler can assign is either the original path, a path
    with at least two separators, or a path under internal/. -/
theorem fixOne_path_cases (ns : List Node) (n : Node) :
    (fixOneNode ns n).Path = n.Path ∨
    2 ≤ countC '/' (fixOneNode ns n).Path ∨
    ∃ f, (fixOneNode ns n).Path = strL "internal/" ++ f := by
  have hs1 : countC '/' slashStr = 1 := by decide
  have htp : countC '/' (strL "testdata/problems/") = 2 := by decide
  simp only [fixOneNode]
  split
  · repeat' split
    all_goals first
      | exact Or.inl rfl
      | (refine Or.inr (Or.inl ?_); simp only [countC_append, hs1, htp]; omega)
      | (refine Or.inr (Or.inr ⟨strL "ui/" ++ (splitC '/' n.Path).getD 1 [], ?_⟩);
         rw [show strL "internal/ui/" = strL "internal/" ++ strL "ui/" from by decide,
           List.append_assoc])
      | (refine Or.inr (Or.inr
           ⟨goTrimTrailing ((splitC '/' n.Path).getD 1 []) (strL "_test.go") ++
             slashStr ++ ((splitC '/' n.Path).getD 1 []), ?_⟩);
         simp [List.append_assoc]; done)
      | (refine Or.inr (Or.inr
           ⟨goTrimTrailing ((splitC '/' n.Path).getD 1 [])
               (goExt ((splitC '/' n.Path).getD 1 [])) ++
             slashStr ++ ((splitC '/' n.Path).getD 1 []), ?_⟩);
         simp [List.append_assoc]; done)
  · repeat' split
    all_goals first
      | exact Or.inl rfl
      | (refine Or.inr (Or.inl ?_); simp only [countC_append, hs1, htp]; omega)

theorem fixOne_at_buildyml_pos (ns : List Node) (n : Node)
    (hp : n.Path = strL ".github/build.yml")
    (hv : hasDirWithPath ns (strL ".github/workflows") = true) :
    fixOneNode ns n = { n with Path := strL ".github/workflows/build.yml" } := by
  simp only [fixOneNode, hp]
  rw [show goDir (strL ".github/build.yml") = strL ".github" from by decide]
  rw [show goBase (strL ".github/build.yml") = strL "build.yml" from by decide]
  rw [if_neg (fun hcontr => absurd hcontr.1 (by decide))]
  rw [if_pos (⟨by decide, by decide, by decide⟩ :
    goStartsWith (strL ".github") (strL ".") = true ∧
    (splitC '/' (strL ".github")).length = 1 ∧
    goStartsWith ((splitC '/' (strL ".github")).getD 0 []) (strL ".") = true)]
  rw [show alookup (strL ".github") hiddenDirConventions =
      some [(strL "build.yml", strL "workflows"), (strL "ci.yml", strL "workflows"),
            (strL "release.yml", strL "workflows"), (strL "settings.yml", strL "settings")]
    from by decide]
  dsimp only []
  rw [show alookup (strL "build.yml")
      [(strL "build.yml", strL "workflows"), (strL "ci.yml", strL "workflows"),
       (strL "release.yml", strL "workflows"), (strL "settings.yml", strL "settings")] =
      some (strL "workflows") from by decide]
  dsimp only []
  rw [show (strL ".github" ++ slashStr ++ strL "workflows") = strL ".github/workflows"
    from by decide]
  rw [if_pos hv]
  rw [show (strL ".github/workflows" ++ slashStr ++ strL "build.yml") =
      strL ".github/workflows/build.yml" from by decide]

theorem fixOne_at_buildyml_neg (ns : List Node) (n : Node)
    (hp : n.Path = strL ".github/build.yml")
    (hv : hasDirWithPath ns (strL ".github/workflows") = false) :
    fixOneNode ns n = { n with Path := strL ".github/build.yml" } := by
  simp only [fixOneNode, hp]
  rw [show goDir (strL ".github/build.yml") = strL ".github" from by decide]
  rw [show goBase (strL ".github/build.yml") = strL "build.yml" from by decide]
  rw [if_neg (fun hcontr => absurd hcontr.1 (by decide))]
  rw [if_pos (⟨by decide, by decide, by decide⟩ :
    goStartsWith (strL ".github") (strL ".") = true ∧
    (splitC '/' (strL ".github")).length = 1 ∧
    goStartsWith ((splitC '/' (strL ".github")).getD 0 []) (strL ".") = true)]
  rw [show alookup (strL ".github") hiddenDirConventions =
      some [(strL "build.yml", strL "workflows"), (strL "ci.yml", strL "workflows"),
            (strL "release.yml", strL "workflows"), (strL "settings.yml", strL "settings")]
    from by decide]
  dsimp only []
  rw [show alookup (strL "build.yml")
      [(strL "build.yml", strL "workflows"), (strL "ci.yml", strL "workflows"),
       (strL "release.yml", strL "workflows"), (strL "settings.yml", strL "settings")] =
      some (strL "workflows") from by decide]
  dsimp only []
  rw [show (strL ".github" ++ slashStr ++ strL "workflows") = strL ".github/workflows"
    from by decide]
  rw [if_neg (by rw [hv]; simp)]
  rw [if_neg (fun hcontr => absurd hcontr.1 (by decide))]

theorem fixOne_ne_buildyml (ns : List Node) (n : Node)
    (hv : hasDirWithPath ns (strL ".github/workflows") = true) :
    ¬ (fixOneNode ns n).Path = strL ".github/build.yml" := by
  by_cases hp : n.Path = strL ".github/build.yml"
  · rw [fixOne_at_buildyml_pos ns n hp hv]
    intro hx
    have hx2 : strL ".github/workflows/build.yml" = strL ".github/build.yml" := hx
    exact absurd hx2 (by decide)
  · rcases fixOne_path_cases ns n with h1 | h2 | ⟨f, h3⟩
    · rw [h1]; exact hp
    · intro hx
      rw [hx] at h2
      have hc1 : countC '/' (strL ".github/build.yml") = 1 := by decide
      omega
    · intro hx
      rw [h3] at hx
      have hhd := congrArg List.head? hx
      rw [List.head?_append_of_ne_nil _ (by decide : ¬ (strL "internal/") = [])] at hhd
      exact absurd hhd (by decide)

/-- C4: a file entry at .github/build.yml is relocated to
    .github/workflows/build.yml exactly when a directory entry whose
    slash-stripped path is .github/workflows exists anywhere in the set; in
    that case no file entry remains at .github/build.yml, and with no such
    directory the entry keeps its path. -/
theorem claim_C4 (ns : List Node) (i : Nat) (a : Node)
    (ha : ns[i]? = some a) (hnd : a.IsDir = false)
    (hp : a.Path = strL ".github/build.yml") :
    (hasDirWithPath ns (strL ".github/workflows") = true →
      ((fixNestedPaths ns)[i]?).map Node.Path =
        some (strL ".github/workflows/build.yml") ∧
      ∀ (j : Nat) (b : Node), (fixNestedPaths ns)[j]? = some b → b.IsDir = false →
        ¬ b.Path = strL ".github/build.yml") ∧
    (hasDirWithPath ns (strL ".github/workflows") = false →
      ((fixNestedPaths ns)[i]?).map Node.Path = some (strL ".github/build.yml")) := by
  constructor
  · intro hv
    constructor
    · rw [fixNestedPaths_char, ha]
      simp only [Option.map_some']
      rw [if_neg (by rw [hnd]; simp)]
      rw [fixOne_at_buildyml_pos ns a hp hv]
    · intro j b hb hbnd
      rw [fixNestedPaths_char] at hb
      cases hg : ns[j]? with
      | none => rw [hg] at hb; cases hb
      | some m =>
        rw [hg] at hb
        simp only [Option.map_some'] at hb
        injection hb with hbe
        by_cases hmd : m.IsDir = true
        · rw [if_pos hmd] at hbe
          subst hbe
          rw [hmd] at hbnd
          cases hbnd
        · rw [if_neg hmd] at hbe
          subst hbe
          exact fixOne_ne_buildyml ns m hv
  · intro hv
    rw [fixNestedPaths_char, ha]
    simp only [Option.map_some']
    rw [if_neg (by rw [hnd]; simp)]
    rw [fixOne_at_buildyml_neg ns a hp hv]

/-- Witness for C4 on the concrete set from the repository's own test
    table: the workflows directory is present and the file moves. -/
theorem claim_C4_witness :
    ((fixNestedPaths [⟨strL ".github/workflows/", true, []⟩,
        ⟨strL ".github/build.yml", false, []⟩])[1]?).map Node.Path =
      some (strL ".github/workflows/build.yml") :=
  ((claim_C4 [⟨strL ".github/workflows/", true, []⟩,
      ⟨strL ".github/build.yml", false, []⟩] 1 ⟨strL ".github/build.yml", false, []⟩
      (by decide) (by decide) (by decide)).1 (by decide)).1

theorem dropWhile_append_of_all (p : Char → Bool) (l1 l2 : Str)
    (h : ∀ a ∈ l1, p a = true) : (l1 ++ l2).dropWhile p = l2.dropWhile p := by
  induction l1 with
  | nil => rfl
  | cons c t ih =>
    rw [List.cons_append, List.dropWhile_cons, if_pos (h c (List.mem_cons_self c t))]
    exact ih (fun a ha => h a (List.mem_cons_of_mem c ha))

theorem goStartsWith_append (p x : Str) : goStartsWith (p ++ x) p = true := by
  simp [goStartsWith, List.take_left]

theorem goDir_internal_append (f : Str) (hf : containsC '/' f = false) :
    goDir (strL "internal/" ++ f) = strL "internal" := by
  have hmem : ∀ a ∈ f.reverse, (fun c => !(decide (c = '/'))) a = true := by
    intro a ha
    have hne : ¬ a = '/' := by
      intro hx
      have : '/' ∈ f := hx ▸ List.mem_reverse.mp ha
      rw [show containsC '/' f = decide ('/' ∈ f) from rfl] at hf
      exact absurd this (of_decide_eq_false hf)
    simp [hne]
  simp only [goDir, List.reverse_append]
  rw [dropWhile_append_of_all _ f.reverse _ hmem]
  decide

theorem splitC_internal (f : Str) (hf : containsC '/' f = false) :
    splitC '/' (strL "internal/" ++ f) = [strL "internal", f] := by
  have hfm : ¬ '/' ∈ f := by
    rw [show containsC '/' f = decide ('/' ∈ f) from rfl] at hf
    exact of_decide_eq_false hf
  rw [show strL "internal/" = strL "internal" ++ ['/'] from by decide, List.append_assoc]
  rw [show (['/'] ++ f : Str) = '/' :: f from rfl]
  rw [splitC_append_cons '/' (strL "internal") f (by decide)]
  rw [splitC_sepfree '/' f hfm]

/-- C9 amended: the same-stem relocation rule applies only to files directly
    under internal/ (not an arbitrary directory D): a file internal/f whose
    base name minus its extension names an existing sibling directory
    internal/X is moved to internal/X/f, provided the overriding _test.go
    and code.go rules do not fire.  The general claim for every D is refuted
    by claim_C9_counterexample. -/
theorem claim_C9_amended (ns : List Node) (i : Nat) (a : Node) (f : Str)
    (ha : ns[i]? = some a) (hnd : a.IsDir = false)
    (hp : a.Path = strL "internal/" ++ f)
    (hf : containsC '/' f = false)
    (hnt : goEndsWith f (strL "_test.go") = false)
    (hnc : ¬ f = strL "code.go")
    (hdir : hasDirWithPath ns (strL "internal/" ++ goTrimTrailing f (goExt f)) = true) :
    ((fixNestedPaths ns)[i]?).map Node.Path =
      some (strL "internal/" ++ goTrimTrailing f (goExt f) ++ slashStr ++ f) := by
  rw [fixNestedPaths_char, ha]
  simp only [Option.map_some']
  rw [if_neg (by rw [hnd]; simp)]
  simp only [fixOneNode, hp]
  rw [goDir_internal_append f hf, splitC_internal f hf]
  rw [show ([strL "internal", f] : List Str).getD 1 [] = f from rfl]
  rw [if_pos (⟨goStartsWith_append (strL "internal/") f, rfl⟩ :
    goStartsWith (strL "internal/" ++ f) (strL "internal/") = true ∧
    ([strL "internal", f] : List Str).length = 2)]
  rw [if_neg (fun hcontr => absurd hcontr.1 hnc)]
  rw [if_neg (fun hcontr => absurd hcontr.1 (by rw [hnt]; simp))]
  rw [if_pos hdir]

/-- Witness for C9 amended: internal/ui.go moves into internal/ui. -/
theorem claim_C9_amended_witness :
    ((fixNestedPaths [⟨strL "internal/ui.go", false, []⟩,
        ⟨strL "internal/ui/", true, []⟩])[0]?).map Node.Path =
      some (strL "internal/" ++
        goTrimTrailing (strL "ui.go") (goExt (strL "ui.go")) ++ slashStr ++
        strL "ui.go") :=
  claim_C9_amended [⟨strL "internal/ui.go", false, []⟩, ⟨strL "internal/ui/", true, []⟩]
    0 ⟨strL "internal/ui.go", false, []⟩ (strL "ui.go")
    (by decide) (by decide) (by decide) (by decide) (by decide) (by decide) (by decide)

/-- C7: output order mirrors input line order and no stage reorders,
    inserts or deletes entries.  (1) The simple-list parser is a filterMap
    over the lines, emitting at most one entry per line in line order.
    (2) The tree parser loop emits, for each line in order, exactly the
    optional node produced by that line, appended before the entries of the
    remaining lines.  (3) The directory classifier preserves the length,
    and the entry at each index is the classified image of the input entry
    at the same index (possibly additionally marked as a directory by pass
    B).  (4) The path reconciler preserves the length, and the entry at
    each index is a function of the input entry at the same index (and the
    static directory set).  No stage sorts. -/
theorem claim_C7 :
    (∀ lines : List Str, parseSimpleFormat lines = lines.filterMap simpleNodeOfLine) ∧
    (∀ (allLines : List Str) (root : Str) (parents : List Str) (l : Str)
        (rest : List Str),
      treeLoop allLines root parents (l :: rest) =
        ((processTreeLine allLines root parents l).2).toList ++
          treeLoop allLines root (processTreeLine allLines root parents l).1 rest) ∧
    (∀ (ns : List Node) (j : Nat),
      (postProcessDirectories ns).length = ns.length ∧
      ((postProcessDirectories ns)[j]? = (ns[j]?).map passAOne ∨
       (postProcessDirectories ns)[j]? = ((ns[j]?).map passAOne).map markDir)) ∧
    (∀ (ns : List Node) (j : Nat),
      (fixNestedPaths ns).length = ns.length ∧
      (fixNestedPaths ns)[j]? =
        (ns[j]?).map (fun n => if n.IsDir = true then n else fixOneNode ns n)) := by
  refine ⟨?_, ?_, ?_, ?_⟩
  · intro lines
    induction lines with
    | nil => rfl
    | cons l rest ih =>
      rw [List.filterMap_cons]
      cases hm : reMatchSimple l with
      | none =>
        rw [parseSimpleFormat, hm]
        rw [show simpleNodeOfLine l = none from by rw [simpleNodeOfLine, hm]; rfl]
        exact ih
      | some m =>
        rw [parseSimpleFormat, hm]
        rw [show simpleNodeOfLine l = some
          { Path := goTrimTrailing m.1 slashStr,
            IsDir := goEndsWith m.1 slashStr,
            Comment := goTrimSpace m.2 } from by rw [simpleNodeOfLine, hm]; rfl]
        rw [ih]
  · intro allLines root parents l rest
    rw [treeLoop]
    cases hp : processTreeLine allLines root parents l with
    | mk ps2 o =>
      cases o with
      | none => rfl
      | some n => rfl
  · intro ns j
    refine ⟨?_, ?_⟩
    · rw [postProcessDirectories, passB, passB_foldl_length]
      simp [passA]
    · have hA : (passA ns)[j]? = (ns[j]?).map passAOne := by simp [passA]
      rcases passB_shape (passA ns) j with h1 | ⟨n, hn1, hn2⟩
      · exact Or.inl (by rw [postProcessDirectories, h1, hA])
      · refine Or.inr ?_
        rw [postProcessDirectories, hn2, ← hA, hn1]
        rfl
  · intro ns j
    exact ⟨fixNestedPaths_length ns, fixNestedPaths_char ns j⟩

theorem emitGuard_ne_nil (X : Str) (d : Bool) (c : Str) (n : Node)
    (h : (if X = [] then none
          else some ({ Path := X, IsDir := d, Comment := c } : Node)) = some n) :
    ¬ n.Path = [] := by
  by_cases hX : X = []
  · rw [if_pos hX] at h
    exact Option.noConfusion h
  · rw [if_neg hX] at h
    injection h with h2
    intro hnil
    rw [← h2] at hnil
    exact hX hnil

theorem processTreeLine_some_ne_nil (allLines : List Str) (root : Str)
    (parents : List Str) (l : Str) (n : Node)
    (h : (processTreeLine allLines root parents l).2 = some n) : ¬ n.Path = [] :=
  emitGuard_ne_nil _ _ _ n h

theorem treeLoop_path_ne_nil (allLines : List Str) (root : Str) :
    ∀ (ls : List Str) (parents : List Str) (n : Node),
      n ∈ treeLoop allLines root parents ls → ¬ n.Path = [] := by
  intro ls
  induction ls with
  | nil =>
    intro parents n hn
    exact absurd hn (List.not_mem_nil n)
  | cons l rest ih =>
    intro parents n
    rw [treeLoop]
    cases hp : processTreeLine allLines root parents l with
    | mk ps2 o =>
      cases o with
      | none =>
        intro hn
        exact ih ps2 n hn
      | some m =>
        intro hn hnil
        rcases List.mem_cons.mp hn with hh | ht
        · exact processTreeLine_some_ne_nil allLines root parents l m
            (by rw [hp]) (by rw [← hh]; exact hnil)
        · exact ih ps2 n ht hnil

theorem parseTreeFormat_path_ne_nil (lines : List Str) (n : Node)
    (hn : n ∈ parseTreeFormat lines) : ¬ n.Path = [] := by
  cases lines with
  | nil => exact absurd hn (by simp [parseTreeFormat])
  | cons l0 rest =>
    simp only [parseTreeFormat] at hn
    by_cases hp : goStartsWith l0 (strL "├──") = true
    · rw [if_pos hp] at hn
      exact treeLoop_path_ne_nil _ _ _ _ n hn
    · rw [if_neg hp] at hn
      exact treeLoop_path_ne_nil _ _ _ _ n hn

theorem markDir_path_ne_nil (n : Node) : ¬ (markDir n).Path = [] := by
  intro h
  simp only [markDir] at h
  by_cases he : goEndsWith n.Path slashStr = true
  · rw [if_pos he] at h
    rw [h] at he
    exact absurd he (by decide)
  · rw [if_neg he] at h
    have hlen := congrArg List.length h
    rw [List.length_append] at hlen
    simp only [List.length_nil, show slashStr.length = 1 from rfl] at hlen
    omega

theorem passAOne_path_ne_nil (n : Node) (h : ¬ n.Path = []) :
    ¬ (passAOne n).Path = [] := by
  simp only [passAOne]
  split
  · exact markDir_path_ne_nil n
  · exact h

theorem postProcess_path_ne_nil (ts : List Node)
    (hts : ∀ t ∈ ts, ¬ t.Path = []) :
    ∀ m ∈ postProcessDirectories ts, ¬ m.Path = [] := by
  intro m hm hmnil
  obtain ⟨⟨j, hjlt⟩, hjget⟩ := List.get_of_mem hm
  have hgj : (postProcessDirectories ts)[j]? = some m := by
    rw [List.getElem?_eq_getElem hjlt]
    exact congrArg some hjget
  rw [postProcessDirectories] at hgj
  rcases passB_shape (passA ts) j with h1 | ⟨k, hk1, hk2⟩
  · rw [h1] at hgj
    rw [show passA ts = ts.map passAOne from rfl, List.getElem?_map] at hgj
    cases hg : ts[j]? with
    | none => rw [hg] at hgj; exact Option.noConfusion hgj
    | some t =>
      rw [hg] at hgj
      injection hgj with hgj2
      have ht := hts t (memOfGet hg)
      exact passAOne_path_ne_nil t ht (by rw [hgj2]; exact hmnil)
  · rw [hk2] at hgj
    injection hgj with hgj2
    exact markDir_path_ne_nil k (by rw [hgj2]; exact hmnil)

/-- C8 amended: when the input is parsed in the tree format (some non-blank
    line contains a tree glyph), no entry returned by Parse has an empty
    path: each emitted line's reconstructed path is dropped by the guard
    when it becomes empty, and the classifier and reconciler never empty a
    path.  The unrestricted claim, which also covers the simple-list
    branch, is refuted by claim_C8_counterexample: the simple parser has no
    such guard and the line consisting of a bare slash yields an entry with
    an empty path. -/
theorem claim_C8_amended (raw : List Str)
    (htree : ((raw.filter (fun l => !(goTrimSpace l).isEmpty)).any
      containsTreeChar) = true)
    (n : Node) (hn : n ∈ ParseCore raw) : ¬ n.Path = [] := by
  intro hnil
  have hne : ¬ ((raw.filter (fun l => !(goTrimSpace l).isEmpty)).isEmpty = true) := by
    intro h
    rw [List.isEmpty_iff] at h
    rw [h] at htree
    exact absurd htree (by decide)
  simp only [ParseCore] at hn
  rw [if_neg hne, if_pos htree] at hn
  have hmid : ∀ m ∈ postProcessDirectories
      (parseTreeFormat (raw.filter (fun l => !(goTrimSpace l).isEmpty))),
      ¬ m.Path = [] :=
    postProcess_path_ne_nil _ (fun t ht => parseTreeFormat_path_ne_nil _ t ht)
  obtain ⟨⟨i, hilt⟩, hget⟩ := List.get_of_mem hn
  have hgi : (fixNestedPaths (postProcessDirectories
      (parseTreeFormat (raw.filter (fun l => !(goTrimSpace l).isEmpty)))))[i]? =
      some n := by
    rw [List.getElem?_eq_getElem hilt]
    exact congrArg some hget
  rw [fixNestedPaths_char] at hgi
  cases hm : (postProcessDirectories
      (parseTreeFormat (raw.filter (fun l => !(goTrimSpace l).isEmpty))))[i]? with
  | none =>
    rw [hm] at hgi
    simp at hgi
  | some m =>
    rw [hm] at hgi
    simp only [Option.map_some'] at hgi
    injection hgi with hgi2
    have hmne := hmid m (memOfGet hm)
    by_cases hd : m.IsDir = true
    · rw [if_pos hd] at hgi2
      exact hmne (by rw [hgi2]; exact hnil)
    · rw [if_neg hd] at hgi2
      rcases fixOne_path_cases (postProcessDirectories
          (parseTreeFormat (raw.filter (fun l => !(goTrimSpace l).isEmpty)))) m
        with hc1 | hc2 | ⟨f, hc3⟩
      · exact hmne (by rw [← hc1, hgi2]; exact hnil)
      · rw [hgi2, hnil] at hc2
        exact absurd hc2 (by decide)
      · rw [hgi2, hnil] at hc3
        exact List.noConfusion hc3

/-- Witness for C8 amended: a one-line tree input yields the entry a.go,
    whose path is non-empty. -/
theorem claim_C8_amended_witness :
    (([strL "├── a.go"].filter (fun l => !(goTrimSpace l).isEmpty)).any
      containsTreeChar = true) ∧
    ((⟨strL "a.go", false, []⟩ : Node) ∈ ParseCore [strL "├── a.go"]) ∧
    ¬ (⟨strL "a.go", false, []⟩ : Node).Path = [] :=
  ⟨by decide, by decide,
   claim_C8_amended [strL "├── a.go"] (by decide) ⟨strL "a.go", false, []⟩ (by decide)⟩
